import Mathlib

/-!
Shallow embedding of the RustMazeSolver program (`src/main.rs`) and proofs
about its maze generation and IDA* search.

Conventions of the embedding:
* `usize` values are modelled as `Nat`; the Rust pattern
  `(x as isize + d) as usize < bound` (where a negative intermediate wraps to a
  huge unsigned value and therefore fails the `<` test) is modelled as the
  equivalent test `0 ≤ x + d ∧ x + d < bound` over `Int`.
* The ambient random generator `rand::thread_rng` is modelled as an explicit
  stream of naturals (`Rng`).  `Rng.gen_range lo hi` returns `none` exactly when
  the Rust call `gen_range(lo..hi)` would panic (empty range).
* Operations that can panic (out-of-bounds indexing in `Maze::new`, empty
  `gen_range`) return `Option`; `none` models the panic.
* Loops are written as fuel-indexed recursions returning `none` on fuel
  exhaustion; sufficiency of the fuel actually supplied is proved separately,
  so the embedded functions agree with the Rust loops on all runs that matter.
* `Vec` push/pop at the back is modelled either by `List` cons at the front
  (for the stacks, where only LIFO order matters) or by `l ++ [x]` /
  `l.dropLast` (for the solver's path, whose left-to-right order matters).
* Terminal rendering (`display`) and sleeping only produce I/O and never change
  the grid, so they are omitted.
-/

namespace MazeSolver

/-- The cell states of the grid (`enum Cell` in the source). -/
inductive Cell where
  | Wall
  | Path
  | Solution
  | Current
  | Visited
deriving DecidableEq, Repr

/-- A grid position `(row, col)`, i.e. the Rust `(usize, usize)` pairs. -/
abbrev Pos := Nat × Nat

/-- The grid `Vec<Vec<Cell>>`. -/
abbrev Grid := List (List Cell)

/-- A visited matrix `Vec<Vec<bool>>`. -/
abbrev VisM := List (List Bool)

/-- Generic matrix read `m[p.0][p.1]` with default `d`. -/
def mget {α : Type} (d : α) (g : List (List α)) (p : Pos) : α :=
  (g.getD p.1 []).getD p.2 d

/-- Generic matrix write `m[p.0][p.1] = a`; out-of-structure writes are
dropped (every actual write in the program is in bounds on the runs we
reason about; out-of-bounds indexing panics are modelled where they can
occur, in `Maze.new`). -/
def mset {α : Type} (g : List (List α)) (p : Pos) (a : α) : List (List α) :=
  g.set p.1 ((g.getD p.1 []).set p.2 a)

/-- Read `grid[p.0][p.1]`; out-of-structure reads default to `Wall`
(every actual read in the program is bounds-checked first). -/
def get2 (g : Grid) (p : Pos) : Cell := mget Cell.Wall g p

/-- Write `grid[p.0][p.1] = c`. -/
def set2 (g : Grid) (p : Pos) (c : Cell) : Grid := mset g p c

/-- Read `visited[p.0][p.1]`, defaulting to `false`. -/
def getV (v : VisM) (p : Pos) : Bool := mget false v p

/-- Write `visited[p.0][p.1] = b`. -/
def setV (v : VisM) (p : Pos) (b : Bool) : VisM := mset v p b

/-- The `Maze` struct. -/
structure Maze where
  size : Nat
  grid : Grid
  start : Pos
  goal : Pos
deriving DecidableEq, Repr

/-- `Maze::new(size)`.  The Rust code indexes `grid[1][1]`, which panics for
`size < 2` (for `size = 0` there is no row 1; for `size = 1` row 1 is missing);
the panic is modelled by `none`. -/
def Maze.new (size : Nat) : Option Maze :=
  if 2 ≤ size then
    let grid : Grid := List.replicate size (List.replicate size Cell.Wall)
    let start : Pos := (1, 1)
    let goal : Pos := (size - 2, size - 2)
    some { size := size
           grid := set2 (set2 grid start Cell.Path) goal Cell.Path
           start := start
           goal := goal }
  else
    none

/-- `Maze::manhattan_distance(pos)`. -/
def manhattan (m : Maze) (p : Pos) : Nat :=
  (((p.1 : Int) - (m.goal.1 : Int)).natAbs + ((p.2 : Int) - (m.goal.2 : Int)).natAbs)

/-- In-bounds check `p.0 < size && p.1 < size` (both coordinates are `usize`,
hence automatically nonnegative). -/
def inBounds (size : Nat) (p : Pos) : Prop := p.1 < size ∧ p.2 < size

instance (size : Nat) (p : Pos) : Decidable (inBounds size p) := by
  unfold inBounds; infer_instance

/-- Two positions differ by exactly one unit in exactly one coordinate. -/
def adjacent (p q : Pos) : Prop :=
  (p.1 = q.1 ∧ (p.2 + 1 = q.2 ∨ q.2 + 1 = p.2)) ∨
  (p.2 = q.2 ∧ (p.1 + 1 = q.1 ∨ q.1 + 1 = p.1))

instance (p q : Pos) : Decidable (adjacent p q) := by
  unfold adjacent; infer_instance

/-- The Rust idiom `((p.0 as isize + d.0) as usize, (p.1 as isize + d.1) as usize)`.
A negative intermediate would wrap to a huge `usize`; all uses guard with a
bound test that the wrapped value fails, which is modelled by the explicit
`0 ≤` conjuncts at each use site. -/
def ofDir (p : Pos) (d : Int × Int) : Pos :=
  (((p.1 : Int) + d.1).toNat, ((p.2 : Int) + d.2).toNat)

/-- The explicit random stream replacing `rand::thread_rng()`: `f` is the
stream of raw draws, `i` the position of the next draw. -/
structure Rng where
  f : Nat → Nat
  i : Nat

/-- Take one raw draw from the stream. -/
def Rng.next (r : Rng) : Nat × Rng := (r.f r.i, { r with i := r.i + 1 })

/-- `rng.gen_range(lo..hi)`: some value in `[lo, hi)` when the range is
nonempty, `none` (panic) when it is empty. -/
def Rng.gen_range (r : Rng) (lo hi : Nat) : Option (Nat × Rng) :=
  if lo < hi then
    let (v, r') := r.next
    some (lo + v % (hi - lo), r')
  else
    none

/-! ## Maze generation (`Maze::generate`) -/

/-- Working state of the depth-first carving loop: the grid, the stack of
carve points (head = top of the Rust `Vec`), the visited matrix, and the
random stream. -/
structure CarveSt where
  grid : Grid
  stack : List Pos
  visited : VisM
  rng : Rng

/-- The unvisited 2-step neighbours of `c`, in the source's direction order
`[(0,2), (2,0), (0,-2), (-2,0)]`, keeping those with both coordinates in
`[0, size-1)` (the wrap-around of a negative `isize` cast to `usize` makes the
Rust bound test fail, which is the `0 ≤` half here). -/
def dirsLat : List (Int × Int) := [(0, 2), (2, 0), (0, -2), (-2, 0)]

def carveNeighbors (size : Nat) (visited : VisM) (c : Pos) : List Pos :=
  dirsLat.filterMap (fun d =>
    let nx : Int := (c.1 : Int) + d.1
    let ny : Int := (c.2 : Int) + d.2
    if 0 ≤ nx ∧ nx < (size : Int) - 1 ∧ 0 ≤ ny ∧ ny < (size : Int) - 1 ∧
        getV visited (ofDir c d) = false then
      some (ofDir c d)
    else
      none)

/-- One round of the carving loop is fuelled; `none` means the fuel ran out
(the loop itself always terminates, which is proved below via `carveFuel`). -/
def carveRun (size : Nat) : Nat → CarveSt → Option CarveSt
  | 0, _ => none
  | fuel + 1, st =>
    match st.stack with
    | [] => some st
    | current :: rest =>
      let ns := carveNeighbors size st.visited current
      if ns.isEmpty then
        carveRun size fuel { st with stack := rest }
      else
        let n := ns.getD (st.rng.next.1 % ns.length) (0, 0)
        let grid' := set2 (set2 st.grid n Cell.Path)
          ((current.1 + n.1) / 2, (current.2 + n.2) / 2) Cell.Path
        carveRun size fuel
          { grid := grid', stack := n :: st.stack,
            visited := setV st.visited n true, rng := st.rng.next.2 }

/-- Fuel that always suffices for the carving loop (proved below). -/
def carveFuel (size : Nat) : Nat := 2 * (size * size) + 2

/-- One trial of the loop-injection pass: sample an interior cell; if it is
`Path`, sample a direction and knock down the wall behind it when in bounds. -/
def injectStep (m : Maze) (rng : Rng) : Option (Maze × Rng) :=
  match rng.gen_range 1 (m.size - 1) with
  | none => none
  | some (x, rng) =>
    match rng.gen_range 1 (m.size - 1) with
    | none => none
    | some (y, rng) =>
      if get2 m.grid (x, y) = Cell.Path then
        match rng.gen_range 0 4 with
        | none => none
        | some (di, rng) =>
          let d := [((0 : Int), (1 : Int)), (1, 0), (0, -1), (-1, 0)].getD di (0, 0)
          let nx : Int := (x : Int) + d.1
          let ny : Int := (y : Int) + d.2
          if 0 ≤ nx ∧ nx < (m.size : Int) - 1 ∧ 0 ≤ ny ∧ ny < (m.size : Int) - 1 ∧
              get2 m.grid (ofDir (x, y) d) = Cell.Wall then
            some ({ m with grid := set2 m.grid (ofDir (x, y) d) Cell.Path }, rng)
          else
            some (m, rng)
      else
        some (m, rng)

/-- The loop-injection pass: exactly `k` trials (the source runs
`for _ in 0..self.size`). -/
def injectLoop : Nat → Maze → Rng → Option (Maze × Rng)
  | 0, m, rng => some (m, rng)
  | k + 1, m, rng =>
    match injectStep m rng with
    | none => none
    | some (m', rng') => injectLoop k m' rng'

/-! ## Solvability check (`Maze::is_solvable`) -/

/-- The four orthogonal step directions in source order
`[(0,1), (1,0), (0,-1), (-1,0)]`. -/
def dirs4 : List (Int × Int) := [(0, 1), (1, 0), (0, -1), (-1, 0)]

/-- Push every in-bounds, unvisited `Path` neighbour of `p` (directions
processed in source order; head of the list is the top of the stack). -/
def pushNeighbors (m : Maze) (p : Pos) :
    List (Int × Int) → List Pos → VisM → List Pos × VisM
  | [], stack, vis => (stack, vis)
  | d :: ds, stack, vis =>
    let nx : Int := (p.1 : Int) + d.1
    let ny : Int := (p.2 : Int) + d.2
    if 0 ≤ nx ∧ nx < (m.size : Int) ∧ 0 ≤ ny ∧ ny < (m.size : Int) ∧
        getV vis (ofDir p d) = false ∧
        get2 m.grid (ofDir p d) = Cell.Path then
      pushNeighbors m p ds (ofDir p d :: stack) (setV vis (ofDir p d) true)
    else
      pushNeighbors m p ds stack vis

/-- The DFS worklist loop of `is_solvable`, fuelled; returns the verdict and
the final visited matrix.  `none` only on fuel exhaustion. -/
def solvLoop (m : Maze) : Nat → List Pos → VisM → Option (Bool × VisM)
  | 0, _, _ => none
  | _ + 1, [], vis => some (false, vis)
  | fuel + 1, p :: rest, vis =>
    if p = m.goal then some (true, vis)
    else
      let sv := pushNeighbors m p dirs4 rest vis
      solvLoop m fuel sv.1 sv.2

/-- Fuel that always suffices for `solvLoop` (proved below). -/
def solvFuel (size : Nat) : Nat := 2 * (size * size) + 2

/-- `Maze::is_solvable`: DFS over `Path` cells from `start`, true iff `goal`
is popped. -/
def Maze.is_solvable (m : Maze) : Bool :=
  match solvLoop m (solvFuel m.size) [m.start]
      (setV (List.replicate m.size (List.replicate m.size false)) m.start true) with
  | some (b, _) => b
  | none => false

/-! ## Repair step and `Maze::generate` -/

/-- Scan row `dx` of the 8-neighbourhood of `goal` (the inner `for dy` loop):
the first `Path` neighbour in that row replaces the accumulator; the inner
`break` stops at the first hit of one row only. -/
def repairScanRow (m : Maze) (dx : Int) (acc : Pos) : Pos :=
  let hits := ([(-1 : Int), 0, 1].filter (fun dy => ¬(dx = 0 ∧ dy = 0))).filter
    (fun dy =>
      get2 m.grid (((m.goal.1 : Int) + dx).toNat, ((m.goal.2 : Int) + dy).toNat)
        = Cell.Path)
  match hits with
  | [] => acc
  | dy :: _ => (((m.goal.1 : Int) + dx).toNat, ((m.goal.2 : Int) + dy).toNat)

/-- The repair step run when the connectivity check fails: scan the
8-neighbourhood of `goal` (default `(goal.0 - 1, goal.1)`) and force the
resulting cell to `Path`.  Note the Rust `break` leaves only the inner loop,
so later rows overwrite earlier hits. -/
def repair (m : Maze) : Maze :=
  let c0 : Pos := (m.goal.1 - 1, m.goal.2)
  let c := [(-1 : Int), 0, 1].foldl (fun acc dx => repairScanRow m dx acc) c0
  { m with grid := set2 m.grid c Cell.Path }

/-- `Maze::generate`: randomized DFS carving, loop injection, re-assertion of
start/goal, connectivity check and (if needed) repair.  `none` models a panic
(only possible in `injectStep` when `size ≤ 2`) or fuel exhaustion (proved
impossible). -/
def Maze.generate (m : Maze) (rng : Rng) : Option Maze :=
  match carveRun m.size (carveFuel m.size)
      ⟨m.grid, [m.start],
        setV (List.replicate m.size (List.replicate m.size false)) m.start true,
        rng⟩ with
  | none => none
  | some stC =>
    match injectLoop m.size { m with grid := stC.grid } stC.rng with
    | none => none
    | some (m2, _) =>
      let m3 : Maze :=
        { m2 with grid := set2 (set2 m2.grid m2.start Cell.Path) m2.goal Cell.Path }
      if m3.is_solvable then some m3 else some (repair m3)

/-! ## IDA* solver (`ida_star` and `search`) -/

/-- The `SearchState` struct: the candidate path (in source order, first
element `start`, last element `current`) and the per-run visited matrix. -/
structure SearchState where
  path : List Pos
  visited : VisM
deriving DecidableEq, Repr

/-- `enum SearchResult`.  The `usize::MAX` "infinity" sentinel of the source
is modelled as `none`; a finite new bound `f` as `some f` (all actual `f`
values are tiny, so the sentinel is never an attainable `f`). -/
inductive SearchResult where
  | Found (p : List Pos)
  | NewBound (v : Option Nat)
deriving DecidableEq, Repr

/-- `min_bound.min(new_bound)` with `none` playing `usize::MAX`. -/
def minOpt : Option Nat → Option Nat → Option Nat
  | none, b => b
  | some a, none => some a
  | some a, some b => some (min a b)

/-- Insert a move into a list sorted by key, after all entries with a key
`≤` its own (so the overall sort is stable, as Rust's `sort_by_key` is). -/
def insertMove (x : Nat × Pos) : List (Nat × Pos) → List (Nat × Pos)
  | [] => [x]
  | y :: ys => if y.1 ≤ x.1 then y :: insertMove x ys else x :: y :: ys

/-- Stable sort of the move list by projected cost, matching
`moves.sort_by_key(|&(cost, _)| cost)`. -/
def sortMoves (l : List (Nat × Pos)) : List (Nat × Pos) :=
  l.foldl (fun acc x => insertMove x acc) []

/-- The candidate moves from `current`: the four orthogonal neighbours, in
bounds, not `Wall`, not in `state.visited`, paired with their projected cost
`(g+1) + h`, sorted ascending by that cost. -/
def getMoves (m : Maze) (g : Nat) (vis : VisM) (current : Pos) : List (Nat × Pos) :=
  sortMoves (dirs4.filterMap (fun d =>
    let nx : Int := (current.1 : Int) + d.1
    let ny : Int := (current.2 : Int) + d.2
    if 0 ≤ nx ∧ nx < (m.size : Int) ∧ 0 ≤ ny ∧ ny < (m.size : Int) ∧
        get2 m.grid (ofDir current d) ≠ Cell.Wall ∧
        getV vis (ofDir current d) = false then
      some (g + 1 + manhattan m (ofDir current d), ofDir current d)
    else
      none))

/-- The neighbour loop of `search`, parametrised by the recursive search call
`sf` made at one less fuel: try each move in order, skipping moves already on
the path; propagate `Found` immediately (without popping, as the Rust `return`
does), otherwise accumulate the minimum child bound and pop. -/
def searchGoAux
    (sf : Maze → Nat → Nat → SearchState → Option (SearchResult × Maze × SearchState)) :
    Maze → Nat → Nat → List (Nat × Pos) → SearchState → Option Nat →
    Option ((List Pos × Maze × SearchState) ⊕ (Option Nat × Maze × SearchState))
  | m, _, _, [], st, minB => some (Sum.inr (minB, m, st))
  | m, g, bound, mv :: rest, st, minB =>
    if st.path.contains mv.2 then
      searchGoAux sf m g bound rest st minB
    else
      match sf m (g + 1) bound { st with path := st.path ++ [mv.2] } with
      | none => none
      | some (.Found sol, m', st') => some (Sum.inl (sol, m', st'))
      | some (.NewBound nb, m', st') =>
        searchGoAux sf m' g bound rest { st' with path := st'.path.dropLast }
          (minOpt minB nb)

/-- The recursive `search(maze, g, bound, state)`, fuelled by recursion depth;
returns the result together with the mutated maze and search state.  `none`
only on fuel exhaustion (the fuel supplied by `ida_star` is proved
sufficient below). -/
def searchF : Nat → Maze → Nat → Nat → SearchState →
    Option (SearchResult × Maze × SearchState)
  | 0, _, _, _, _ => none
  | fuel + 1, m, g, bound, st =>
    let current := st.path.getLast?.getD (0, 0)
    let f := g + manhattan m current
    let m1 : Maze := { m with grid := set2 m.grid current Cell.Current }
    if bound < f then
      let m2 := if current = m.start then m1
        else { m1 with grid := set2 m1.grid current Cell.Visited }
      some (.NewBound (some f), m2, st)
    else if current = m.goal then
      let m2 :=
        { m1 with grid := st.path.foldl (fun gr p => set2 gr p Cell.Solution) m1.grid }
      some (.Found st.path, m2, st)
    else
      let st1 : SearchState := { st with visited := setV st.visited current true }
      match searchGoAux (searchF fuel) m1 g bound (getMoves m1 g st1.visited current) st1 none with
      | none => none
      | some (Sum.inl (sol, m2, st2)) => some (.Found sol, m2, st2)
      | some (Sum.inr (mb, m2, st2)) =>
        let m3 := if current = m.start then m2
          else { m2 with grid := set2 m2.grid current Cell.Visited }
        some (.NewBound mb, m3, st2)

/-- The neighbour loop of `search` at a given fuel (the recursive search calls
it makes run at that same fuel). -/
def searchGo (fuel : Nat) : Maze → Nat → Nat → List (Nat × Pos) → SearchState →
    Option Nat →
    Option ((List Pos × Maze × SearchState) ⊕ (Option Nat × Maze × SearchState)) :=
  searchGoAux (searchF fuel)

/-- Fuel that always suffices for `searchF` starting from `ida_star`'s root
call (proved below). -/
def searchFuel (size : Nat) : Nat := size * size + 1

/-- The bound-escalation loop of `ida_star` (`while bound < size*size`),
fuelled; returns the result of the run (`some path` / "no solution" `none`)
together with the final maze.  The outer `none` only on fuel exhaustion. -/
def idaLoop : Nat → Maze → Nat → SearchState → Option (Option (List Pos) × Maze)
  | 0, _, _, _ => none
  | fuel + 1, m, bound, st =>
    if bound < m.size * m.size then
      match searchF (searchFuel m.size) m 0 bound st with
      | none => none
      | some (.Found sol, m', _) => some (some sol, m')
      | some (.NewBound v, m', st') =>
        let bound' := match v with
          | none => bound + m.size
          | some nv => nv + m.size / 2
        idaLoop fuel m' bound' { st' with path := [m'.start] }
    else
      some (none, m)

/-- Fuel that always suffices for `idaLoop` (proved below). -/
def idaFuel (size : Nat) : Nat := size * size + 1

/-- `ida_star(&mut maze)`: initial bound `3 * h(start)`, fresh search state,
then the escalation loop. -/
def Maze.ida_star (m : Maze) : Option (Option (List Pos) × Maze) :=
  let st : SearchState :=
    ⟨[m.start], List.replicate m.size (List.replicate m.size false)⟩
  idaLoop (idaFuel m.size) m (3 * manhattan m m.start) st

/-! ## The whole program (`main`) -/

/-- The effective size: a successfully parsed `usize` argument is used as is,
parse failure or absence falls back to 15. -/
def effectiveSize (parsed : Option Nat) : Nat := parsed.getD 15

/-- One whole run of `main` for a given effective size and random stream:
construct, generate, solve.  The result is `none` when the run panics, and
otherwise carries `ida_star`'s outcome (the program prints a message and
exits with code 0 in both the `Some` and `None` cases). -/
def programRun (size : Nat) (rng : Rng) : Option (Option (List Pos)) :=
  match Maze.new size with
  | none => none
  | some m =>
    match m.generate rng with
    | none => none
    | some m2 =>
      match m2.ida_star with
      | none => none
      | some (r, _) => some r

/-! ## Specification-side notions -/

/-- Well-formedness of a maze value as produced by `Maze::new`: size at least
2, canonical start/goal, and a `size × size` grid. -/
def Maze.WF (m : Maze) : Prop :=
  2 ≤ m.size ∧ m.start = (1, 1) ∧ m.goal = (m.size - 2, m.size - 2) ∧
    m.grid.length = m.size ∧ ∀ r ∈ m.grid, r.length = m.size

/-- Reachability from `s` over cells that are in bounds and exactly `Path`;
the first cell `s` itself is not constrained (mirroring the DFS of
`is_solvable`, which never inspects the start cell). -/
inductive PReach (g : Grid) (size : Nat) (s : Pos) : Pos → Prop where
  | base : PReach g size s s
  | step {p q : Pos} : PReach g size s p → adjacent p q → inBounds size q →
      get2 g q = Cell.Path → PReach g size s q

/-- A valid returned solver path: starts at `start`, ends at `goal`, moves one
unit in one coordinate at a time, never repeats a position, and stays on
in-bounds non-`Wall` cells of the given maze. -/
def validPath (m : Maze) (l : List Pos) : Prop :=
  l.head? = some m.start ∧ l.getLast? = some m.goal ∧ l.Chain' adjacent ∧
    l.Nodup ∧ ∀ p ∈ l, inBounds m.size p ∧ get2 m.grid p ≠ Cell.Wall

/-- Modelled from the spec: the independent breadth-first search used as the
optimality referee ("shortest-path length computed by an independent
breadth-first search over the same topology").  `bfsLayer m k` is the BFS
frontier closure: all cells reachable from `start` in at most `k`
4-directional steps over in-bounds non-`Wall` cells. -/
def bfsLayer (m : Maze) : Nat → List Pos
  | 0 => [m.start]
  | k + 1 =>
    let s := bfsLayer m k
    (s ++ s.flatMap (fun p => dirs4.filterMap (fun d =>
      let nx : Int := (p.1 : Int) + d.1
      let ny : Int := (p.2 : Int) + d.2
      if 0 ≤ nx ∧ nx < (m.size : Int) ∧ 0 ≤ ny ∧ ny < (m.size : Int) ∧
          get2 m.grid (ofDir p d) ≠ Cell.Wall then
        some (ofDir p d)
      else
        none))).dedup

/-- Modelled from the spec: `goal` is reachable within `k` BFS steps. -/
def bfsReaches (m : Maze) (k : Nat) : Prop := m.goal ∈ bfsLayer m k

instance (m : Maze) (k : Nat) : Decidable (bfsReaches m k) := by
  unfold bfsReaches; infer_instance

/-- Modelled from the spec: the shortest-path length from start to goal
determined by the breadth-first search, i.e. the least number of steps within
which the goal is reached. -/
def shortestLen (m : Maze) (h : ∃ k, bfsReaches m k) : Nat := Nat.find h

/-- Shape predicate: an `n × n` matrix. -/
def Shaped {α : Type} (g : List (List α)) (n : Nat) : Prop :=
  g.length = n ∧ ∀ i, i < n → (g.getD i []).length = n

/-- Number of `false` entries of a visited matrix (the loop variant of the
worklist loops). -/
def falseCount : VisM → Nat
  | [] => 0
  | r :: v => r.count false + falseCount v

/-- Eligibility for the solvability DFS: 4-adjacent, in bounds, exactly `Path`. -/
def elig (m : Maze) (p q : Pos) : Prop :=
  adjacent p q ∧ inBounds m.size q ∧ get2 m.grid q = Cell.Path

/-- A route witnessing what `is_solvable` actually decides: a sequence of
4-adjacent positions from `start` to `goal` in which every position after the
first is in bounds with state exactly `Path` (the start cell itself is never
inspected by the DFS). -/
def tailPathRoute (m : Maze) (l : List Pos) : Prop :=
  l.head? = some m.start ∧ l.getLast? = some m.goal ∧ l.Chain' adjacent ∧
    ∀ p ∈ l.tail, inBounds m.size p ∧ get2 m.grid p = Cell.Path

/-- The route notion of the claim on `is_solvable` taken literally: every
position of the sequence, including the first, is in bounds with state
exactly `Path`. -/
def allPathRoute (m : Maze) (l : List Pos) : Prop :=
  l.head? = some m.start ∧ l.getLast? = some m.goal ∧ l.Chain' adjacent ∧
    ∀ p ∈ l, inBounds m.size p ∧ get2 m.grid p = Cell.Path

/-- The result type of `searchGo`: early `Found` exit or the accumulated
minimum bound. -/
abbrev GoOut := (List Pos × Maze × SearchState) ⊕ (Option Nat × Maze × SearchState)

/-- The maze component of a `searchGo` result. -/
def outMaze : GoOut → Maze
  | Sum.inl x => x.2.1
  | Sum.inr x => x.2.1

/-- The search-state component of a `searchGo` result. -/
def outState : GoOut → SearchState
  | Sum.inl x => x.2.2
  | Sum.inr x => x.2.2

/-- A 2-step lattice neighbour within the carving bounds, exactly the cells
`carveNeighbors` may produce (visited or not). -/
def latNbr (n : Nat) (p q : Pos) : Prop :=
  q.1 < n - 1 ∧ q.2 < n - 1 ∧
    ((q.1 = p.1 ∧ (q.2 = p.2 + 2 ∨ q.2 + 2 = p.2)) ∨
     (q.2 = p.2 ∧ (q.1 = p.1 + 2 ∨ q.1 + 2 = p.1)))

/-- Invariant of the depth-first carving loop, relative to grid side `n` and
the carve origin `s`: shapes, every visited cell is `Path`-reachable from the
origin, stack cells are visited and within the carve bounds, and every
visited cell no longer on the stack has all its lattice neighbours visited. -/
def CInv (n : Nat) (s : Pos) (st : CarveSt) : Prop :=
  Shaped st.grid n ∧ Shaped st.visited n ∧
    (∀ p, getV st.visited p = true → PReach st.grid n s p) ∧
    (∀ p ∈ st.stack, getV st.visited p = true) ∧
    (∀ p ∈ st.stack, p.1 < n - 1 ∧ p.2 < n - 1) ∧
    (∀ p, getV st.visited p = true → p ∉ st.stack →
      ∀ q, latNbr n p q → getV st.visited q = true)

/-! ## Concrete instances used as test vectors -/

/-- The all-zero random stream. -/
def rng0 : Rng := ⟨fun _ => 0, 0⟩

/-- Shorthand for a wall cell in grid literals. -/
def cW : Cell := Cell.Wall

/-- Shorthand for an open cell in grid literals. -/
def cP : Cell := Cell.Path

/-- The maze `Maze::new(3)` builds: one open interior cell, start and goal
both at `(1, 1)`. -/
def M3 : Maze :=
  ⟨3, [[cW, cW, cW], [cW, cP, cW], [cW, cW, cW]], (1, 1), (1, 1)⟩

/-- The maze `ida_star` leaves behind on `M3`: the start cell is painted
`Solution`. -/
def M3fin : Maze :=
  ⟨3, [[cW, cW, cW], [cW, Cell.Solution, cW], [cW, cW, cW]], (1, 1), (1, 1)⟩

/-- The path `ida_star` returns on `M3`. -/
def M3sol : List Pos := [(1, 1)]

/-- A 3 × 3 maze of walls only, start and goal both at `(1, 1)`. -/
def MW3 : Maze :=
  ⟨3, [[cW, cW, cW], [cW, cW, cW], [cW, cW, cW]], (1, 1), (1, 1)⟩

/-- The maze `Maze::new(2)` builds. -/
def M2 : Maze := ⟨2, [[cP, cW], [cW, cP]], (1, 1), (0, 0)⟩

/-- The maze `Maze::new(5)` builds. -/
def M5 : Maze :=
  ⟨5,
   [[cW, cW, cW, cW, cW],
    [cW, cP, cW, cW, cW],
    [cW, cW, cW, cW, cW],
    [cW, cW, cW, cP, cW],
    [cW, cW, cW, cW, cW]], (1, 1), (3, 3)⟩

/-- The maze `generate` produces from `Maze::new(5)` under the all-zero
random stream. -/
def M5gen : Maze :=
  ⟨5,
   [[cW, cW, cW, cW, cW],
    [cW, cP, cP, cP, cW],
    [cW, cW, cW, cP, cW],
    [cW, cP, cP, cP, cW],
    [cW, cW, cW, cW, cW]], (1, 1), (3, 3)⟩

/-- A 7 × 7 maze with several routes from `(1, 1)` to `(5, 5)`; the shortest
route takes 8 steps. -/
def M7 : Maze :=
  ⟨7,
   [[cW, cW, cW, cW, cW, cW, cW],
    [cW, cP, cP, cP, cP, cP, cW],
    [cW, cP, cW, cP, cP, cP, cW],
    [cW, cP, cW, cP, cP, cW, cW],
    [cW, cP, cW, cW, cP, cP, cW],
    [cW, cP, cP, cP, cP, cP, cW],
    [cW, cW, cW, cW, cW, cW, cW]], (1, 1), (5, 5)⟩

/-- The path `ida_star` returns on `M7` (11 cells, 10 steps). -/
def M7path : List Pos :=
  [(1, 1), (1, 2), (1, 3), (1, 4), (1, 5), (2, 5), (2, 4), (3, 4), (4, 4),
   (4, 5), (5, 5)]

/-- A search state over `M3` with the corner `(2, 2)` already marked
visited. -/
def st1 : SearchState :=
  ⟨[(1, 1)], setV (List.replicate 3 (List.replicate 3 false)) (2, 2) true⟩

/-! ## Basic lemmas about the matrix operations -/

theorem getD_set_eq {α : Type} (l : List α) (i : Nat) (a d : α) (h : i < l.length) :
    (l.set i a).getD i d = a := by
  rw [List.getD_eq_getElem?_getD, List.getElem?_set_self h]
  rfl

theorem getD_set_ne {α : Type} (l : List α) {i j : Nat} (a d : α) (h : i ≠ j) :
    (l.set i a).getD j d = l.getD j d := by
  rw [List.getD_eq_getElem?_getD, List.getElem?_set_ne h, ← List.getD_eq_getElem?_getD]

theorem getD_set_out {α : Type} (l : List α) {i : Nat} (a d : α) (h : l.length ≤ i) :
    (l.set i a).getD i d = l.getD i d := by
  rw [List.set_eq_of_length_le h]

theorem mget_mset_self {α : Type} (d a : α) (g : List (List α)) (p : Pos)
    (h1 : p.1 < g.length) (h2 : p.2 < (g.getD p.1 []).length) :
    mget d (mset g p a) p = a := by
  unfold mget mset
  rw [getD_set_eq _ _ _ _ h1, getD_set_eq _ _ _ _ h2]

theorem mget_mset_self_of {α : Type} (d a : α) (g : List (List α)) {n : Nat} (p : Pos)
    (hs : Shaped g n) (hp : inBounds n p) : mget d (mset g p a) p = a := by
  refine mget_mset_self d a g p ?_ ?_
  · rw [hs.1]; exact hp.1
  · rw [hs.2 p.1 (by rw [← hs.1]; rw [hs.1]; exact hp.1)]; exact hp.2

theorem mget_mset_ne {α : Type} (d a : α) (g : List (List α)) {p q : Pos} (h : p ≠ q) :
    mget d (mset g q a) p = mget d g p := by
  obtain ⟨p1, p2⟩ := p
  obtain ⟨q1, q2⟩ := q
  simp only [mget, mset]
  by_cases h1 : q1 = p1
  · subst h1
    have h2 : q2 ≠ p2 := by
      intro h2
      subst h2
      exact h rfl
    by_cases hl : q1 < g.length
    · rw [getD_set_eq _ _ _ _ hl, getD_set_ne _ _ _ h2]
    · rw [List.set_eq_of_length_le (by omega)]
  · rw [getD_set_ne _ _ _ h1]

theorem mget_mset_cases {α : Type} (d a : α) (g : List (List α)) (p q : Pos) :
    mget d (mset g q a) p = a ∨ mget d (mset g q a) p = mget d g p := by
  by_cases h : p = q
  · subst h
    by_cases h1 : p.1 < g.length
    · by_cases h2 : p.2 < (g.getD p.1 []).length
      · exact Or.inl (mget_mset_self d a g p h1 h2)
      · right
        unfold mget mset
        rw [getD_set_eq _ _ _ _ h1, getD_set_out _ _ _ (by omega)]
    · right
      unfold mget mset
      rw [List.set_eq_of_length_le (by omega)]
  · exact Or.inr (mget_mset_ne d a g h)

theorem Shaped.length_getD {α : Type} {g : List (List α)} {n : Nat}
    (hs : Shaped g n) (i : Nat) : (g.getD i []).length = if i < n then n else 0 := by
  by_cases hi : i < n
  · rw [hs.2 i hi, if_pos hi]
  · rw [if_neg hi]
    have : g.length ≤ i := by rw [hs.1]; omega
    rw [List.getD_eq_getElem?_getD, List.getElem?_eq_none this]
    rfl

theorem Shaped.mset {α : Type} {g : List (List α)} {n : Nat}
    (hs : Shaped g n) (p : Pos) (a : α) : Shaped (mset g p a) n := by
  unfold MazeSolver.mset
  constructor
  · rw [List.length_set, hs.1]
  · intro i hi
    by_cases h1 : p.1 = i
    · subst h1
      by_cases hl : p.1 < g.length
      · rw [getD_set_eq _ _ _ _ hl, List.length_set]
        exact hs.2 _ hi
      · rw [hs.1] at hl; omega
    · rw [getD_set_ne _ _ _ h1]
      exact hs.2 _ hi

theorem Shaped.replicate {α : Type} (n : Nat) (a : α) :
    Shaped (List.replicate n (List.replicate n a)) n := by
  constructor
  · exact List.length_replicate n _
  · intro i hi
    rw [List.getD_eq_getElem?_getD, List.getElem?_replicate_of_lt (by simpa using hi)]
    simp

theorem getD_replicate {α : Type} (a d : α) (n i : Nat) :
    (List.replicate n a).getD i d = if i < n then a else d := by
  rw [List.getD_eq_getElem?_getD, List.getElem?_replicate]
  by_cases h : i < n
  · simp [h]
  · simp [h]

theorem mget_replicate {α : Type} (d a : α) (n : Nat) (p : Pos) :
    mget d (List.replicate n (List.replicate n a)) p = if inBounds n p then a else d := by
  unfold mget inBounds
  rw [getD_replicate]
  by_cases h1 : p.1 < n
  · rw [if_pos h1, getD_replicate]
    by_cases h2 : p.2 < n
    · simp [h1, h2]
    · simp [h1, h2]
  · rw [if_neg h1]
    simp [h1]

theorem count_false_set_true (l : List Bool) :
    ∀ i, i < l.length → l.getD i false = false →
      (l.set i true).count false + 1 = l.count false := by
  induction l with
  | nil => intro i hi; simp at hi
  | cons x xs ih =>
    intro i hi hx
    match i with
    | 0 =>
      simp only [List.getD_cons_zero] at hx
      subst hx
      simp [List.count_cons]
    | j + 1 =>
      simp only [List.getD_cons_succ] at hx
      simp only [List.length_cons, Nat.add_lt_add_iff_right] at hi
      simp only [List.set_cons_succ, List.count_cons]
      have := ih j hi hx
      omega

theorem falseCount_set_row (v : VisM) :
    ∀ i r', i < v.length → falseCount (v.set i r') + (v.getD i []).count false =
      falseCount v + r'.count false := by
  induction v with
  | nil => intro i r' hi; simp at hi
  | cons r v ih =>
    intro i r' hi
    match i with
    | 0 =>
      simp only [List.set_cons_zero, List.getD_cons_zero, falseCount]
      omega
    | j + 1 =>
      have hj : j < v.length := by
        simp only [List.length_cons] at hi
        omega
      simp only [List.set_cons_succ, List.getD_cons_succ, falseCount]
      have := ih j r' hj
      omega

theorem falseCount_setV {v : VisM} {n : Nat} (hs : Shaped v n) {p : Pos}
    (hp : inBounds n p) (hv : getV v p = false) :
    falseCount (setV v p true) + 1 = falseCount v := by
  unfold setV mset
  have h1 : p.1 < v.length := by rw [hs.1]; exact hp.1
  have h2 : p.2 < (v.getD p.1 []).length := by rw [hs.2 p.1 hp.1]; exact hp.2
  have hrow : ((v.getD p.1 []).set p.2 true).count false + 1 =
      (v.getD p.1 []).count false :=
    count_false_set_true _ p.2 h2 hv
  have := falseCount_set_row v p.1 ((v.getD p.1 []).set p.2 true) h1
  omega

theorem falseCount_le_of_rows (n : Nat) :
    ∀ v : VisM, (∀ r ∈ v, r.count false ≤ n) → falseCount v ≤ v.length * n := by
  intro v
  induction v with
  | nil => intro _; simp [falseCount]
  | cons r v ih =>
    intro h
    simp only [falseCount, List.length_cons]
    have h1 : r.count false ≤ n := h r (List.mem_cons_self r v)
    have h2 : falseCount v ≤ v.length * n := ih (fun r' hr' => h r' (List.mem_cons_of_mem r hr'))
    nlinarith

theorem falseCount_le {v : VisM} {n : Nat} (hs : Shaped v n) :
    falseCount v ≤ n * n := by
  have hrows : ∀ r ∈ v, r.count false ≤ n := by
    intro r hr
    obtain ⟨i, hi⟩ := List.mem_iff_getElem?.mp hr
    have hilt : i < v.length := by
      by_contra hge
      rw [List.getElem?_eq_none (Nat.le_of_not_lt hge)] at hi
      exact Option.noConfusion hi
    have hlen : r.length = n := by
      have := hs.2 i (by rw [← hs.1]; exact hilt)
      rw [List.getD_eq_getElem?_getD, hi] at this
      simpa using this
    calc r.count false ≤ r.length := List.count_le_length false r
      _ = n := hlen
  have := falseCount_le_of_rows n v hrows
  rw [hs.1] at this
  exact this

/-! ## Direction lemmas -/

theorem ofDir_adjacent {p : Pos} {d : Int × Int} (hd : d ∈ dirs4)
    (hx : 0 ≤ (p.1 : Int) + d.1) (hy : 0 ≤ (p.2 : Int) + d.2) :
    adjacent p (ofDir p d) := by
  simp only [dirs4, List.mem_cons, List.not_mem_nil, or_false] at hd
  rcases hd with h | h | h | h
  all_goals subst h
  all_goals simp only [ofDir, adjacent] at *
  all_goals omega

theorem ofDir_inBounds {n : Nat} {p : Pos} {d : Int × Int}
    (hx : 0 ≤ (p.1 : Int) + d.1) (hx' : (p.1 : Int) + d.1 < (n : Int))
    (hy : 0 ≤ (p.2 : Int) + d.2) (hy' : (p.2 : Int) + d.2 < (n : Int)) :
    inBounds n (ofDir p d) := by
  simp only [ofDir, inBounds]
  omega

theorem adjacent_ofDir_cover {n : Nat} {p q : Pos} (h : adjacent p q)
    (hq : inBounds n q) :
    ∃ d ∈ dirs4, q = ofDir p d ∧ 0 ≤ (p.1 : Int) + d.1 ∧
      (p.1 : Int) + d.1 < (n : Int) ∧ 0 ≤ (p.2 : Int) + d.2 ∧
      (p.2 : Int) + d.2 < (n : Int) := by
  obtain ⟨p1, p2⟩ := p
  obtain ⟨q1, q2⟩ := q
  obtain ⟨hb1, hb2⟩ := hq
  simp only [adjacent] at h
  simp only at hb1 hb2
  rcases h with ⟨h1, h2 | h2⟩ | ⟨h1, h2 | h2⟩
  · exact ⟨(0, 1), by simp [dirs4], by simp [ofDir, Prod.ext_iff]; omega,
      by omega, by omega, by omega, by omega⟩
  · exact ⟨(0, -1), by simp [dirs4], by simp [ofDir, Prod.ext_iff]; omega,
      by omega, by omega, by omega, by omega⟩
  · exact ⟨(1, 0), by simp [dirs4], by simp [ofDir, Prod.ext_iff]; omega,
      by omega, by omega, by omega, by omega⟩
  · exact ⟨(-1, 0), by simp [dirs4], by simp [ofDir, Prod.ext_iff]; omega,
      by omega, by omega, by omega, by omega⟩

/-! ## Visited-matrix conveniences -/

theorem getV_fresh (n : Nat) (q : Pos) :
    getV (List.replicate n (List.replicate n false)) q = false := by
  unfold getV
  rw [mget_replicate]
  by_cases h : inBounds n q
  · rw [if_pos h]
  · rw [if_neg h]

theorem getV_setV_mono {v : VisM} {p q : Pos} (h : getV v q = true) :
    getV (setV v p true) q = true := by
  rcases mget_mset_cases false true v q p with hc | hc
  · exact hc
  · unfold getV setV at *
    rw [hc]
    exact h

theorem getV_setV_elim {v : VisM} {p q : Pos} (h : getV (setV v p true) q = true) :
    q = p ∨ getV v q = true := by
  by_cases hpq : q = p
  · exact Or.inl hpq
  · right
    unfold getV setV at *
    rw [mget_mset_ne _ _ _ hpq] at h
    exact h

theorem getV_setV_self {v : VisM} {n : Nat} (hs : Shaped v n) {p : Pos}
    (hp : inBounds n p) : getV (setV v p true) p = true :=
  mget_mset_self_of false true v p hs hp

/-! ## `pushNeighbors` lemmas -/

theorem pushNeighbors_stack_mem (m : Maze) (p : Pos) :
    ∀ (ds : List (Int × Int)) (stack : List Pos) (vis : VisM),
      (∀ d ∈ ds, d ∈ dirs4) →
      ∀ q ∈ (pushNeighbors m p ds stack vis).1, q ∈ stack ∨ elig m p q := by
  intro ds
  induction ds with
  | nil => intro stack vis _ q hq; exact Or.inl hq
  | cons d ds ih =>
    intro stack vis hds q hq
    rw [pushNeighbors] at hq
    split at hq
    case isTrue hcond =>
      obtain ⟨hx, hx', hy, hy', _, hpath⟩ := hcond
      rcases ih _ _ (fun d' hd' => hds d' (List.mem_cons_of_mem d hd')) q hq with hmem | helig
      · rcases List.mem_cons.mp hmem with hq' | hq'
        · subst hq'
          right
          exact ⟨ofDir_adjacent (hds d (List.mem_cons_self d ds)) hx hy,
            ofDir_inBounds hx hx' hy hy', hpath⟩
        · exact Or.inl hq'
      · exact Or.inr helig
    case isFalse =>
      exact ih _ _ (fun d' hd' => hds d' (List.mem_cons_of_mem d hd')) q hq

theorem pushNeighbors_vis_mono (m : Maze) (p : Pos) :
    ∀ (ds : List (Int × Int)) (stack : List Pos) (vis : VisM) (q : Pos),
      getV vis q = true → getV (pushNeighbors m p ds stack vis).2 q = true := by
  intro ds
  induction ds with
  | nil => intro stack vis q hq; exact hq
  | cons d ds ih =>
    intro stack vis q hq
    rw [pushNeighbors]
    split
    · exact ih _ _ _ (getV_setV_mono hq)
    · exact ih _ _ _ hq

theorem pushNeighbors_stack_incl (m : Maze) (p : Pos) :
    ∀ (ds : List (Int × Int)) (stack : List Pos) (vis : VisM) (q : Pos),
      q ∈ stack → q ∈ (pushNeighbors m p ds stack vis).1 := by
  intro ds
  induction ds with
  | nil => intro stack vis q hq; exact hq
  | cons d ds ih =>
    intro stack vis q hq
    rw [pushNeighbors]
    split
    · exact ih _ _ _ (List.mem_cons_of_mem _ hq)
    · exact ih _ _ _ hq

theorem pushNeighbors_vis_new (m : Maze) (p : Pos) :
    ∀ (ds : List (Int × Int)) (stack : List Pos) (vis : VisM) (q : Pos),
      getV (pushNeighbors m p ds stack vis).2 q = true →
      getV vis q = true ∨ q ∈ (pushNeighbors m p ds stack vis).1 := by
  intro ds
  induction ds with
  | nil => intro stack vis q hq; exact Or.inl hq
  | cons d ds ih =>
    intro stack vis q hq
    rw [pushNeighbors] at hq ⊢
    split at hq
    case isTrue hcond =>
      rw [if_pos hcond]
      rcases ih _ _ _ hq with hold | hnew
      · rcases getV_setV_elim hold with hq' | hq'
        · subst hq'
          exact Or.inr (pushNeighbors_stack_incl m p ds _ _ _ (List.mem_cons_self _ _))
        · exact Or.inl hq'
      · exact Or.inr hnew
    case isFalse hcond =>
      rw [if_neg hcond]
      exact ih _ _ _ hq

theorem pushNeighbors_shape (m : Maze) (p : Pos) {n : Nat} :
    ∀ (ds : List (Int × Int)) (stack : List Pos) (vis : VisM),
      Shaped vis n → Shaped (pushNeighbors m p ds stack vis).2 n := by
  intro ds
  induction ds with
  | nil => intro stack vis hs; exact hs
  | cons d ds ih =>
    intro stack vis hs
    rw [pushNeighbors]
    split
    · exact ih _ _ (hs.mset _ _)
    · exact ih _ _ hs

theorem pushNeighbors_closure (m : Maze) (p : Pos) :
    ∀ (ds : List (Int × Int)) (stack : List Pos) (vis : VisM),
      Shaped vis m.size →
      ∀ d ∈ ds, 0 ≤ (p.1 : Int) + d.1 → (p.1 : Int) + d.1 < (m.size : Int) →
        0 ≤ (p.2 : Int) + d.2 → (p.2 : Int) + d.2 < (m.size : Int) →
        get2 m.grid (ofDir p d) = Cell.Path →
        getV (pushNeighbors m p ds stack vis).2 (ofDir p d) = true := by
  intro ds
  induction ds with
  | nil => intro stack vis _ d hd; exact absurd hd (List.not_mem_nil d)
  | cons d0 ds ih =>
    intro stack vis hs d hd hx hx' hy hy' hpath
    rcases List.mem_cons.mp hd with hd' | hd'
    · subst hd'
      rw [pushNeighbors]
      split
      case isTrue =>
        exact pushNeighbors_vis_mono m p ds _ _ _
          (getV_setV_self hs (ofDir_inBounds hx hx' hy hy'))
      case isFalse hcond =>
        have hvis : getV vis (ofDir p d) = true := by
          by_contra hne
          exact hcond ⟨hx, hx', hy, hy',
            Bool.eq_false_iff.mpr (fun h => hne h), hpath⟩
        exact pushNeighbors_vis_mono m p ds _ _ _ hvis
    · rw [pushNeighbors]
      split
      · exact ih _ _ (hs.mset _ _) d hd' hx hx' hy hy' hpath
      · exact ih _ _ hs d hd' hx hx' hy hy' hpath

theorem pushNeighbors_measure (m : Maze) (p : Pos) :
    ∀ (ds : List (Int × Int)) (stack : List Pos) (vis : VisM),
      Shaped vis m.size →
      2 * falseCount (pushNeighbors m p ds stack vis).2 +
        (pushNeighbors m p ds stack vis).1.length ≤
        2 * falseCount vis + stack.length := by
  intro ds
  induction ds with
  | nil => intro stack vis _; exact Nat.le_refl _
  | cons d ds ih =>
    intro stack vis hs
    rw [pushNeighbors]
    split
    case isTrue hcond =>
      obtain ⟨hx, hx', hy, hy', hunvis, _⟩ := hcond
      have hfc := falseCount_setV hs (ofDir_inBounds hx hx' hy hy') hunvis
      have := ih (ofDir p d :: stack) (setV vis (ofDir p d) true) (hs.mset _ _)
      simp only [List.length_cons] at this
      omega
    case isFalse =>
      exact ih _ _ hs

/-! ## `solvLoop` lemmas -/

theorem solvLoop_isSome (m : Maze) :
    ∀ (fuel : Nat) (stack : List Pos) (vis : VisM),
      Shaped vis m.size → 2 * falseCount vis + stack.length < fuel →
      (solvLoop m fuel stack vis).isSome = true := by
  intro fuel
  induction fuel with
  | zero => intro stack vis _ h; omega
  | succ fuel ih =>
    intro stack vis hs h
    match stack with
    | [] => rw [solvLoop]; rfl
    | p :: rest =>
      rw [solvLoop]
      by_cases hg : p = m.goal
      · rw [if_pos hg]; rfl
      · rw [if_neg hg]
        apply ih _ _ (pushNeighbors_shape m p dirs4 rest vis hs)
        have := pushNeighbors_measure m p dirs4 rest vis hs
        simp only [List.length_cons] at h
        omega

theorem solvLoop_vis_mono (m : Maze) :
    ∀ (fuel : Nat) (stack : List Pos) (vis : VisM) (b : Bool) (vis' : VisM),
      solvLoop m fuel stack vis = some (b, vis') →
      ∀ q, getV vis q = true → getV vis' q = true := by
  intro fuel
  induction fuel with
  | zero =>
    intro stack vis b vis' h
    rw [solvLoop] at h
    exact Option.noConfusion h
  | succ fuel ih =>
    intro stack vis b vis' h q hq
    match stack with
    | [] =>
      rw [solvLoop] at h
      simp only [Option.some.injEq, Prod.mk.injEq] at h
      rw [← h.2]
      exact hq
    | p :: rest =>
      rw [solvLoop] at h
      by_cases hg : p = m.goal
      · rw [if_pos hg] at h
        simp only [Option.some.injEq, Prod.mk.injEq] at h
        rw [← h.2]
        exact hq
      · rw [if_neg hg] at h
        exact ih _ _ _ _ h q (pushNeighbors_vis_mono m p dirs4 rest vis q hq)

theorem solvLoop_sound (m : Maze) (s : Pos) :
    ∀ (fuel : Nat) (stack : List Pos) (vis vis' : VisM),
      (∀ q ∈ stack, PReach m.grid m.size s q) →
      solvLoop m fuel stack vis = some (true, vis') →
      PReach m.grid m.size s m.goal := by
  intro fuel
  induction fuel with
  | zero =>
    intro stack vis vis' _ h
    rw [solvLoop] at h
    exact Option.noConfusion h
  | succ fuel ih =>
    intro stack vis vis' hstack h
    match stack with
    | [] =>
      rw [solvLoop] at h
      simp only [Option.some.injEq, Prod.mk.injEq] at h
      exact absurd h.1 (by decide)
    | p :: rest =>
      rw [solvLoop] at h
      by_cases hg : p = m.goal
      · rw [← hg]
        exact hstack p (List.mem_cons_self p rest)
      · rw [if_neg hg] at h
        refine ih _ _ _ ?_ h
        intro q hq
        rcases pushNeighbors_stack_mem m p dirs4 rest vis (fun d hd => hd) q hq with
          hmem | helig
        · exact hstack q (List.mem_cons_of_mem p hmem)
        · exact PReach.step (hstack p (List.mem_cons_self p rest)) helig.1
            helig.2.1 helig.2.2

theorem solvLoop_closed (m : Maze) :
    ∀ (fuel : Nat) (stack : List Pos) (vis vis' : VisM),
      Shaped vis m.size →
      (∀ q, getV vis q = true → q ∈ stack ∨ ∀ r, elig m q r → getV vis r = true) →
      (getV vis m.goal = true → m.goal ∈ stack) →
      solvLoop m fuel stack vis = some (false, vis') →
      (∀ q, getV vis' q = true → ∀ r, elig m q r → getV vis' r = true) ∧
        getV vis' m.goal = false := by
  intro fuel
  induction fuel with
  | zero =>
    intro stack vis vis' _ _ _ h
    rw [solvLoop] at h
    exact Option.noConfusion h
  | succ fuel ih =>
    intro stack vis vis' hs hK hJ h
    match stack with
    | [] =>
      rw [solvLoop] at h
      simp only [Option.some.injEq, Prod.mk.injEq] at h
      rw [← h.2]
      constructor
      · intro q hq r hr
        rcases hK q hq with hstk | hclosed
        · exact absurd hstk (List.not_mem_nil q)
        · exact hclosed r hr
      · by_cases hgv : getV vis m.goal = true
        · exact absurd (hJ hgv) (List.not_mem_nil _)
        · exact Bool.eq_false_iff.mpr hgv
    | p :: rest =>
      rw [solvLoop] at h
      by_cases hg : p = m.goal
      · rw [if_pos hg] at h
        simp only [Option.some.injEq, Prod.mk.injEq] at h
        exact absurd h.1 (by decide)
      · rw [if_neg hg] at h
        refine ih _ _ _ (pushNeighbors_shape m p dirs4 rest vis hs) ?_ ?_ h
        · intro q hq
          rcases pushNeighbors_vis_new m p dirs4 rest vis q hq with hold | hnew
          · rcases hK q hold with hstk | hclosed
            · rcases List.mem_cons.mp hstk with hqp | hqrest
              · subst hqp
                right
                intro r hr
                obtain ⟨d, hd, hrd, hx, hx', hy, hy'⟩ :=
                  adjacent_ofDir_cover hr.1 hr.2.1
                rw [hrd]
                exact pushNeighbors_closure m q dirs4 rest vis hs d hd hx hx' hy hy'
                  (hrd ▸ hr.2.2)
              · exact Or.inl (pushNeighbors_stack_incl m p dirs4 rest vis q hqrest)
            · right
              intro r hr
              exact pushNeighbors_vis_mono m p dirs4 rest vis r (hclosed r hr)
          · exact Or.inl hnew
        · intro hgq
          rcases pushNeighbors_vis_new m p dirs4 rest vis _ hgq with hold | hnew
          · rcases List.mem_cons.mp (hJ hold) with hgp | hgrest
            · exact absurd hgp.symm hg
            · exact pushNeighbors_stack_incl m p dirs4 rest vis _ hgrest
          · exact hnew

theorem PReach_closed {m : Maze} {s : Pos} {visX : VisM}
    (hstart : ∀ r, elig m s r → getV visX r = true)
    (hclosed : ∀ q, getV visX q = true → ∀ r, elig m q r → getV visX r = true) :
    ∀ t, PReach m.grid m.size s t → t = s ∨ getV visX t = true := by
  intro t ht
  induction ht with
  | base => exact Or.inl rfl
  | step hp hadj hb hpath ih =>
    rcases ih with hps | hvp
    · subst hps
      exact Or.inr (hstart _ ⟨hadj, hb, hpath⟩)
    · exact Or.inr (hclosed _ hvp _ ⟨hadj, hb, hpath⟩)

theorem solvable_sound {m : Maze} (h : m.is_solvable = true) :
    PReach m.grid m.size m.start m.goal := by
  unfold Maze.is_solvable at h
  cases hrun : solvLoop m (solvFuel m.size) [m.start]
      (setV (List.replicate m.size (List.replicate m.size false)) m.start true) with
  | none =>
    rw [hrun] at h
    exact absurd h (by decide)
  | some bv =>
    obtain ⟨b, vis'⟩ := bv
    rw [hrun] at h
    dsimp only at h
    subst h
    refine solvLoop_sound m m.start _ _ _ _ ?_ hrun
    intro q hq
    rcases List.mem_cons.mp hq with hq' | hq'
    · subst hq'
      exact PReach.base
    · exact absurd hq' (List.not_mem_nil q)

theorem solvable_complete {m : Maze} (h : PReach m.grid m.size m.start m.goal) :
    m.is_solvable = true := by
  have hshape0 : Shaped (setV (List.replicate m.size (List.replicate m.size false))
      m.start true) m.size := (Shaped.replicate m.size false).mset m.start true
  by_cases hsg : m.start = m.goal
  · have hres : solvLoop m (solvFuel m.size) [m.start]
        (setV (List.replicate m.size (List.replicate m.size false)) m.start true) =
        some (true, setV (List.replicate m.size (List.replicate m.size false))
          m.start true) := by
      rw [show solvFuel m.size = 2 * (m.size * m.size) + 1 + 1 from rfl, solvLoop,
        if_pos hsg]
    unfold Maze.is_solvable
    rw [hres]
  · have hstep : solvLoop m (solvFuel m.size) [m.start]
        (setV (List.replicate m.size (List.replicate m.size false)) m.start true) =
        solvLoop m (2 * (m.size * m.size) + 1)
          (pushNeighbors m m.start dirs4 []
            (setV (List.replicate m.size (List.replicate m.size false)) m.start true)).1
          (pushNeighbors m m.start dirs4 []
            (setV (List.replicate m.size (List.replicate m.size false)) m.start true)).2
        := by
      rw [show solvFuel m.size = 2 * (m.size * m.size) + 1 + 1 from rfl, solvLoop,
        if_neg hsg]
    set vis0 := setV (List.replicate m.size (List.replicate m.size false)) m.start true
      with hvis0
    have hshape1 : Shaped (pushNeighbors m m.start dirs4 [] vis0).2 m.size :=
      pushNeighbors_shape m m.start dirs4 [] vis0 hshape0
    have hmeas : 2 * falseCount (pushNeighbors m m.start dirs4 [] vis0).2 +
        (pushNeighbors m m.start dirs4 [] vis0).1.length < 2 * (m.size * m.size) + 1 := by
      have h1 := pushNeighbors_measure m m.start dirs4 [] vis0 hshape0
      have h2 := falseCount_le hshape0
      simp only [List.length_nil] at h1
      omega
    have hsome := solvLoop_isSome m (2 * (m.size * m.size) + 1)
      (pushNeighbors m m.start dirs4 [] vis0).1
      (pushNeighbors m m.start dirs4 [] vis0).2 hshape1 hmeas
    obtain ⟨⟨b, vis'⟩, hrun⟩ := Option.isSome_iff_exists.mp hsome
    cases b with
    | true =>
      unfold Maze.is_solvable
      rw [hstep, hrun]
    | false =>
      exfalso
      have hviselim : ∀ q, getV vis0 q = true → q = m.start := by
        intro q hq
        rcases getV_setV_elim hq with h' | h'
        · exact h'
        · rw [getV_fresh] at h'
          exact Bool.noConfusion h'
      have hK1 : ∀ q, getV (pushNeighbors m m.start dirs4 [] vis0).2 q = true →
          q ∈ (pushNeighbors m m.start dirs4 [] vis0).1 ∨
          ∀ r, elig m q r → getV (pushNeighbors m m.start dirs4 [] vis0).2 r = true := by
        intro q hq
        rcases pushNeighbors_vis_new m m.start dirs4 [] vis0 q hq with hold | hnew
        · have hqs : q = m.start := hviselim q hold
          subst hqs
          right
          intro r hr
          obtain ⟨d, hd, hrd, hx, hx', hy, hy'⟩ := adjacent_ofDir_cover hr.1 hr.2.1
          rw [hrd]
          exact pushNeighbors_closure m m.start dirs4 [] vis0 hshape0 d hd hx hx' hy hy'
            (hrd ▸ hr.2.2)
        · exact Or.inl hnew
      have hJ1 : getV (pushNeighbors m m.start dirs4 [] vis0).2 m.goal = true →
          m.goal ∈ (pushNeighbors m m.start dirs4 [] vis0).1 := by
        intro hgq
        rcases pushNeighbors_vis_new m m.start dirs4 [] vis0 _ hgq with hold | hnew
        · exact absurd (hviselim _ hold).symm hsg
        · exact hnew
      obtain ⟨hclosed, hgoalfalse⟩ := solvLoop_closed m _ _ _ _ hshape1 hK1 hJ1 hrun
      have hstartclosure : ∀ r, elig m m.start r → getV vis' r = true := by
        intro r hr
        obtain ⟨d, hd, hrd, hx, hx', hy, hy'⟩ := adjacent_ofDir_cover hr.1 hr.2.1
        have hmark := pushNeighbors_closure m m.start dirs4 [] vis0 hshape0 d hd
          hx hx' hy hy' (hrd ▸ hr.2.2)
        rw [hrd]
        exact solvLoop_vis_mono m _ _ _ _ _ hrun _ hmark
      rcases PReach_closed hstartclosure hclosed m.goal h with hgs | hgv
      · exact hsg hgs.symm
      · rw [hgv] at hgoalfalse
        exact Bool.noConfusion hgoalfalse

/-! ## `PReach` as explicit routes -/

theorem PReach_trans {g : Grid} {n : Nat} {s p t : Pos}
    (h1 : PReach g n s p) (h2 : PReach g n p t) : PReach g n s t := by
  induction h2 with
  | base => exact h1
  | step _ hadj hb hpath ih => exact PReach.step ih hadj hb hpath

theorem PReach_mono {g g' : Grid} {n : Nat} {s t : Pos}
    (hmono : ∀ q, get2 g q = Cell.Path → get2 g' q = Cell.Path)
    (h : PReach g n s t) : PReach g' n s t := by
  induction h with
  | base => exact PReach.base
  | step _ hadj hb hpath ih => exact PReach.step ih hadj hb (hmono _ hpath)

theorem route_PReach {g : Grid} {n : Nat} :
    ∀ (l : List Pos) (s : Pos), l.head? = some s → l.Chain' adjacent →
      (∀ p ∈ l.tail, inBounds n p ∧ get2 g p = Cell.Path) →
      ∀ t, l.getLast? = some t → PReach g n s t := by
  intro l
  induction l with
  | nil => intro s h; exact Option.noConfusion h
  | cons x xs ih =>
    intro s hhead hchain htail t hlast
    rw [List.head?_cons, Option.some.injEq] at hhead
    subst hhead
    match xs with
    | [] =>
      rw [List.getLast?_singleton, Option.some.injEq] at hlast
      subst hlast
      exact PReach.base
    | y :: ys =>
      rw [List.chain'_cons] at hchain
      have hy := htail y (List.mem_cons_self y ys)
      have hsy : PReach g n x y := PReach.step PReach.base hchain.1 hy.1 hy.2
      rw [List.getLast?_cons_cons] at hlast
      refine PReach_trans hsy (ih y List.head?_cons hchain.2 ?_ t hlast)
      intro p hp
      exact htail p (List.mem_cons_of_mem y hp)

theorem PReach_route {g : Grid} {n : Nat} {s t : Pos} :
    PReach g n s t ↔ ∃ l : List Pos, l.head? = some s ∧ l.getLast? = some t ∧
      l.Chain' adjacent ∧ ∀ p ∈ l.tail, inBounds n p ∧ get2 g p = Cell.Path := by
  constructor
  · intro h
    induction h with
    | base =>
      exact ⟨[s], List.head?_cons, List.getLast?_singleton s,
        List.chain'_singleton s, by intro p hp; exact absurd hp (List.not_mem_nil p)⟩
    | step hpr hadj hb hpath ih =>
      rename_i p q
      obtain ⟨l, hhead, hlast, hchain, htail⟩ := ih
      obtain ⟨l₀, hl₀⟩ := List.head?_eq_some_iff.mp hhead
      refine ⟨l ++ [q], ?_, ?_, ?_, ?_⟩
      · rw [List.head?_append, hhead]; rfl
      · rw [List.getLast?_append]; rfl
      · rw [List.chain'_append]
        refine ⟨hchain, List.chain'_singleton q, ?_⟩
        intro a ha b hb'
        rw [hlast, Option.mem_def, Option.some.injEq] at ha
        rw [List.head?_cons, Option.mem_def, Option.some.injEq] at hb'
        subst ha
        subst hb'
        exact hadj
      · subst hl₀
        intro r hr
        rw [List.cons_append, List.tail_cons] at hr
        rcases List.mem_append.mp hr with h' | h'
        · exact htail r (by rw [List.tail_cons]; exact h')
        · rw [List.mem_singleton] at h'
          subst h'
          exact ⟨hb, hpath⟩
  · intro ⟨l, hhead, hlast, hchain, htail⟩
    exact route_PReach l s hhead hchain htail t hlast

/-! ## Carving-loop lemmas -/

theorem carveNeighbors_mem {n : Nat} {vis : VisM} {c q : Pos} :
    q ∈ carveNeighbors n vis c ↔ latNbr n c q ∧ getV vis q = false := by
  simp only [carveNeighbors, List.mem_filterMap, dirsLat, List.mem_cons,
    List.not_mem_nil, or_false]
  constructor
  · rintro ⟨d, hd, hf⟩
    rcases hd with rfl | rfl | rfl | rfl
    all_goals
      split at hf
      case isTrue hcond =>
        obtain ⟨hx, hx', hy, hy', hv⟩ := hcond
        simp only [Option.some.injEq] at hf
        subst hf
        refine ⟨?_, hv⟩
        simp only [latNbr, ofDir] at *
        omega
      case isFalse => exact Option.noConfusion hf
  · rintro ⟨⟨hb1, hb2, hrel⟩, hv⟩
    rcases hrel with ⟨h1, h2 | h2⟩ | ⟨h1, h2 | h2⟩
    · refine ⟨(0, 2), Or.inl rfl, ?_⟩
      have hq : ofDir c (0, 2) = q := by
        simp only [ofDir, Prod.ext_iff]; omega
      rw [if_pos ⟨by omega, by omega, by omega, by omega, by rw [hq]; exact hv⟩, hq]
    · refine ⟨(0, -2), Or.inr (Or.inr (Or.inl rfl)), ?_⟩
      have hq : ofDir c (0, -2) = q := by
        simp only [ofDir, Prod.ext_iff]; omega
      rw [if_pos ⟨by omega, by omega, by omega, by omega, by rw [hq]; exact hv⟩, hq]
    · refine ⟨(2, 0), Or.inr (Or.inl rfl), ?_⟩
      have hq : ofDir c (2, 0) = q := by
        simp only [ofDir, Prod.ext_iff]; omega
      rw [if_pos ⟨by omega, by omega, by omega, by omega, by rw [hq]; exact hv⟩, hq]
    · refine ⟨(-2, 0), Or.inr (Or.inr (Or.inr rfl)), ?_⟩
      have hq : ofDir c (-2, 0) = q := by
        simp only [ofDir, Prod.ext_iff]; omega
      rw [if_pos ⟨by omega, by omega, by omega, by omega, by rw [hq]; exact hv⟩, hq]

theorem latNbr_mid {n : Nat} {p q : Pos} (hp1 : p.1 < n - 1) (hp2 : p.2 < n - 1)
    (h : latNbr n p q) :
    adjacent p ((p.1 + q.1) / 2, (p.2 + q.2) / 2) ∧
      adjacent ((p.1 + q.1) / 2, (p.2 + q.2) / 2) q ∧
      inBounds n ((p.1 + q.1) / 2, (p.2 + q.2) / 2) ∧ inBounds n q := by
  obtain ⟨hb1, hb2, hrel⟩ := h
  simp only [adjacent, inBounds]
  rcases hrel with ⟨h1, h2 | h2⟩ | ⟨h1, h2 | h2⟩
  all_goals omega

theorem get2_set2_ne {g : Grid} {q x : Pos} (c : Cell) (h : q ≠ x) :
    get2 (set2 g x c) q = get2 g q :=
  mget_mset_ne Cell.Wall c g h

theorem get2_set2_self_of {g : Grid} {n : Nat} {q : Pos} (c : Cell)
    (hs : Shaped g n) (hq : inBounds n q) : get2 (set2 g q c) q = c :=
  mget_mset_self_of Cell.Wall c g q hs hq

theorem get2_set2_path {g : Grid} {q x : Pos} (h : get2 g q = Cell.Path) :
    get2 (set2 g x Cell.Path) q = Cell.Path := by
  rcases mget_mset_cases Cell.Wall Cell.Path g q x with hc | hc
  · exact hc
  · unfold get2 set2 at *
    rw [hc]
    exact h

theorem carveRun_inv (n : Nat) (s : Pos) :
    ∀ (fuel : Nat) (st st' : CarveSt), CInv n s st → carveRun n fuel st = some st' →
      CInv n s st' ∧ st'.stack = [] ∧
      (∀ p, getV st.visited p = true → getV st'.visited p = true) := by
  intro fuel
  induction fuel with
  | zero =>
    intro st st' _ h
    rw [carveRun] at h
    exact Option.noConfusion h
  | succ fuel ih =>
    intro st st' hinv h
    obtain ⟨hgs, hvs, hv1, hv2, hv3, hv4⟩ := hinv
    rw [carveRun] at h
    cases hstk : st.stack with
    | nil =>
      rw [hstk] at h
      simp only [Option.some.injEq] at h
      subst h
      exact ⟨⟨hgs, hvs, hv1, hv2, hv3, hv4⟩, hstk, fun p hp => hp⟩
    | cons current rest =>
      rw [hstk] at h
      dsimp only at h
      by_cases hne : (carveNeighbors n st.visited current).isEmpty
      · rw [if_pos hne] at h
        have hempty : carveNeighbors n st.visited current = [] :=
          List.isEmpty_iff.mp hne
        refine ih { st with stack := rest } st' ⟨hgs, hvs, hv1, ?_, ?_, ?_⟩ h
        · intro p hp
          exact hv2 p (by rw [hstk]; exact List.mem_cons_of_mem current hp)
        · intro p hp
          exact hv3 p (by rw [hstk]; exact List.mem_cons_of_mem current hp)
        · intro p hp hpstk q hq
          by_cases hpc : p = current
          · subst hpc
            by_contra hqv
            have hqf : getV st.visited q = false :=
              Bool.eq_false_iff.mpr (fun hcontr => hqv hcontr)
            have : q ∈ carveNeighbors n st.visited p :=
              carveNeighbors_mem.mpr ⟨hq, hqf⟩
            rw [hempty] at this
            exact List.not_mem_nil q this
          · refine hv4 p hp ?_ q hq
            rw [hstk]
            intro hmem
            rcases List.mem_cons.mp hmem with h' | h'
            · exact hpc h'
            · exact hpstk h'
      · rw [if_neg hne] at h
        have hlen : 0 < (carveNeighbors n st.visited current).length :=
          List.length_pos.mpr (fun hnil => hne (List.isEmpty_iff.mpr hnil))
        set ns := carveNeighbors n st.visited current with hns
        set nn := ns.getD (st.rng.next.1 % ns.length) (0, 0) with hnn
        have hmemnn : nn ∈ ns := by
          have hlt : st.rng.next.1 % ns.length < ns.length :=
            Nat.mod_lt _ hlen
          rw [hnn, List.getD_eq_getElem?_getD, List.getElem?_eq_getElem hlt]
          exact List.getElem_mem hlt
        obtain ⟨hlat, hunvis⟩ := carveNeighbors_mem.mp (hns ▸ hmemnn)
        have hcur_stk : current ∈ st.stack := by
          rw [hstk]; exact List.mem_cons_self current rest
        have hcurb := hv3 current hcur_stk
        obtain ⟨hadj1, hadj2, hmidb, hnnb⟩ := latNbr_mid hcurb.1 hcurb.2 hlat
        have hcurvis := hv2 current hcur_stk
        set mid : Pos := ((current.1 + nn.1) / 2, (current.2 + nn.2) / 2) with hmid
        set grid' := set2 (set2 st.grid nn Cell.Path) mid Cell.Path with hgrid'
        have hgs1 : Shaped (set2 st.grid nn Cell.Path) n := hgs.mset nn Cell.Path
        have hgs' : Shaped grid' n := hgs1.mset mid Cell.Path
        have hmono : ∀ q, get2 st.grid q = Cell.Path → get2 grid' q = Cell.Path :=
          fun q hq => get2_set2_path (get2_set2_path hq)
        have hmidpath : get2 grid' mid = Cell.Path := by
          rw [hgrid']
          exact get2_set2_self_of Cell.Path hgs1 hmidb
        have hnnpath : get2 grid' nn = Cell.Path := by
          rw [hgrid']
          by_cases hmn : mid = nn
          · rw [← hmn]
            exact get2_set2_self_of Cell.Path (hgs.mset mid Cell.Path) hmidb
          · rw [get2_set2_ne Cell.Path (fun hc => hmn hc.symm)]
            exact get2_set2_self_of Cell.Path hgs hnnb
        have hreach_nn : PReach grid' n s nn := by
          have hrc : PReach grid' n s current := PReach_mono hmono (hv1 current hcurvis)
          exact PReach.step (PReach.step hrc hadj1 hmidb hmidpath) hadj2 hnnb hnnpath
        have hvs' : Shaped (setV st.visited nn true) n := hvs.mset nn true
        refine (ih _ st' ⟨hgs', hvs', ?_, ?_, ?_, ?_⟩ h).imp id
          (fun hc => hc.imp id (fun hm p hp => hm p (getV_setV_mono hp)))
        · intro p hp
          rcases getV_setV_elim hp with hpn | hpold
          · subst hpn
            exact hreach_nn
          · exact PReach_mono hmono (hv1 p hpold)
        · intro p hp
          rcases List.mem_cons.mp hp with hpn | hpold
          · subst hpn
            exact getV_setV_self hvs hnnb
          · exact getV_setV_mono (hv2 p (by rw [hstk]; exact hpold))
        · intro p hp
          rcases List.mem_cons.mp hp with hpn | hpold
          · subst hpn
            exact ⟨hlat.1, hlat.2.1⟩
          · exact hv3 p (by rw [hstk]; exact hpold)
        · intro p hp hpstk q hq
          rcases getV_setV_elim hp with hpn | hpold
          · subst hpn
            exact absurd (List.mem_cons_self nn _) hpstk
          · refine getV_setV_mono (hv4 p hpold ?_ q hq)
            intro hmem
            rw [hstk] at hmem
            exact hpstk (List.mem_cons_of_mem nn hmem)

theorem carveRun_isSome (n : Nat) :
    ∀ (fuel : Nat) (st : CarveSt), Shaped st.visited n →
      2 * falseCount st.visited + st.stack.length < fuel →
      (carveRun n fuel st).isSome = true := by
  intro fuel
  induction fuel with
  | zero => intro st _ h; omega
  | succ fuel ih =>
    intro st hs h
    rw [carveRun]
    cases hstk : st.stack with
    | nil => rfl
    | cons current rest =>
      dsimp only
      rw [hstk] at h
      simp only [List.length_cons] at h
      by_cases hne : (carveNeighbors n st.visited current).isEmpty
      · rw [if_pos hne]
        exact ih _ hs (by dsimp only; omega)
      · rw [if_neg hne]
        have hlen : 0 < (carveNeighbors n st.visited current).length :=
          List.length_pos.mpr (fun hnil => hne (List.isEmpty_iff.mpr hnil))
        have hmemnn : (carveNeighbors n st.visited current).getD
            (st.rng.next.1 % (carveNeighbors n st.visited current).length) (0, 0) ∈
            carveNeighbors n st.visited current := by
          have hlt : st.rng.next.1 % (carveNeighbors n st.visited current).length <
              (carveNeighbors n st.visited current).length := Nat.mod_lt _ hlen
          rw [List.getD_eq_getElem?_getD, List.getElem?_eq_getElem hlt]
          exact List.getElem_mem hlt
        obtain ⟨hlat, hunvis⟩ := carveNeighbors_mem.mp hmemnn
        have hb : inBounds n ((carveNeighbors n st.visited current).getD
            (st.rng.next.1 % (carveNeighbors n st.visited current).length) (0, 0)) := by
          have h1 := hlat.1
          have h2 := hlat.2.1
          exact ⟨by omega, by omega⟩
        have hfc := falseCount_setV hs hb hunvis
        refine ih _ (hs.mset _ _) ?_
        dsimp only
        simp only [List.length_cons]
        omega

theorem lattice_span {n : Nat} (hodd : n % 2 = 1) (h5 : 5 ≤ n) {vf : VisM}
    (hstart : getV vf (1, 1) = true)
    (hclosed : ∀ p, getV vf p = true → ∀ q, latNbr n p q → getV vf q = true) :
    getV vf (n - 2, n - 2) = true := by
  have hrow : ∀ k, 1 + 2 * k ≤ n - 2 → getV vf (1, 1 + 2 * k) = true := by
    intro k
    induction k with
    | zero => intro _; simpa using hstart
    | succ k ihk =>
      intro hk
      refine hclosed _ (ihk (by omega)) _ ?_
      exact ⟨by omega, by omega, Or.inl ⟨rfl, Or.inl (by omega)⟩⟩
  have hcol : ∀ j, 1 + 2 * j ≤ n - 2 → getV vf (1 + 2 * j, n - 2) = true := by
    intro j
    induction j with
    | zero =>
      intro _
      have hk := hrow ((n - 3) / 2) (by omega)
      have heq : 1 + 2 * ((n - 3) / 2) = n - 2 := by omega
      rw [heq] at hk
      simpa using hk
    | succ j ihj =>
      intro hj
      refine hclosed _ (ihj (by omega)) _ ?_
      exact ⟨by omega, by omega, Or.inr ⟨rfl, Or.inl (by omega)⟩⟩
  have hlast := hcol ((n - 3) / 2) (by omega)
  have heq : 1 + 2 * ((n - 3) / 2) = n - 2 := by omega
  rw [heq] at hlast
  exact hlast

/-! ## Loop-injection lemmas -/

theorem injectStep_cases {m m' : Maze} {rng rng' : Rng}
    (h : injectStep m rng = some (m', rng')) :
    m' = m ∨ ∃ c : Pos, m' = { m with grid := set2 m.grid c Cell.Path } := by
  unfold injectStep at h
  cases h1 : rng.gen_range 1 (m.size - 1) with
  | none => rw [h1] at h; exact Option.noConfusion h
  | some pr1 =>
    obtain ⟨x, rng1⟩ := pr1
    rw [h1] at h
    dsimp only at h
    cases h2 : rng1.gen_range 1 (m.size - 1) with
    | none => rw [h2] at h; exact Option.noConfusion h
    | some pr2 =>
      obtain ⟨y, rng2⟩ := pr2
      rw [h2] at h
      dsimp only at h
      by_cases hp : get2 m.grid (x, y) = Cell.Path
      · rw [if_pos hp] at h
        cases h3 : rng2.gen_range 0 4 with
        | none => rw [h3] at h; exact Option.noConfusion h
        | some pr3 =>
          obtain ⟨di, rng3⟩ := pr3
          rw [h3] at h
          dsimp only at h
          split at h
          · simp only [Option.some.injEq, Prod.mk.injEq] at h
            exact Or.inr ⟨_, h.1.symm⟩
          · simp only [Option.some.injEq, Prod.mk.injEq] at h
            exact Or.inl h.1.symm
      · rw [if_neg hp] at h
        simp only [Option.some.injEq, Prod.mk.injEq] at h
        exact Or.inl h.1.symm

theorem injectStep_isSome {m : Maze} (h3 : 3 ≤ m.size) (rng : Rng) :
    (injectStep m rng).isSome = true := by
  have hgr : ∀ r : Rng, r.gen_range 1 (m.size - 1) =
      some (1 + r.f r.i % (m.size - 1 - 1), { r with i := r.i + 1 }) := by
    intro r
    unfold Rng.gen_range Rng.next
    rw [if_pos (by omega)]
  have hg4 : ∀ r : Rng, r.gen_range 0 4 =
      some (0 + r.f r.i % (4 - 0), { r with i := r.i + 1 }) := by
    intro r
    unfold Rng.gen_range Rng.next
    rw [if_pos (by omega)]
  unfold injectStep
  rw [hgr]
  dsimp only
  rw [hgr]
  dsimp only
  split
  · rw [hg4]
    dsimp only
    split
    · rfl
    · rfl
  · rfl

theorem injectLoop_props :
    ∀ (k : Nat) (m : Maze) (rng : Rng) (m' : Maze) (rng' : Rng),
      injectLoop k m rng = some (m', rng') →
      m'.size = m.size ∧ m'.start = m.start ∧ m'.goal = m.goal ∧
        (∀ q, get2 m.grid q = Cell.Path → get2 m'.grid q = Cell.Path) ∧
        ∀ nsh : Nat, Shaped m.grid nsh → Shaped m'.grid nsh := by
  intro k
  induction k with
  | zero =>
    intro m rng m' rng' h
    rw [injectLoop] at h
    simp only [Option.some.injEq, Prod.mk.injEq] at h
    rw [← h.1]
    exact ⟨rfl, rfl, rfl, fun q hq => hq, fun nsh hs => hs⟩
  | succ k ih =>
    intro m rng m' rng' h
    rw [injectLoop] at h
    cases hstep : injectStep m rng with
    | none => rw [hstep] at h; exact Option.noConfusion h
    | some pr =>
      obtain ⟨m1, rng1⟩ := pr
      rw [hstep] at h
      dsimp only at h
      obtain ⟨hsz, hst, hgl, hmono, hshape⟩ := ih m1 rng1 m' rng' h
      rcases injectStep_cases hstep with hcase | ⟨c, hcase⟩
      · subst hcase
        exact ⟨hsz, hst, hgl, hmono, hshape⟩
      · subst hcase
        refine ⟨hsz, hst, hgl, ?_, ?_⟩
        · intro q hq
          exact hmono q (get2_set2_path hq)
        · intro nsh hs
          exact hshape nsh (hs.mset _ _)

theorem injectLoop_isSome :
    ∀ (k : Nat) (m : Maze) (rng : Rng), 3 ≤ m.size →
      (injectLoop k m rng).isSome = true := by
  intro k
  induction k with
  | zero => intro m rng _; rfl
  | succ k ih =>
    intro m rng h3
    obtain ⟨⟨m1, rng1⟩, hstep⟩ :=
      Option.isSome_iff_exists.mp (injectStep_isSome h3 rng)
    rw [injectLoop, hstep]
    dsimp only
    refine ih m1 rng1 ?_
    rcases injectStep_cases hstep with hcase | ⟨c, hcase⟩
    · rw [hcase]; exact h3
    · rw [hcase]; exact h3

/-! ## Generation-level lemmas -/

theorem carveRun_shape (n : Nat) :
    ∀ (fuel : Nat) (st st' : CarveSt), Shaped st.grid n →
      carveRun n fuel st = some st' → Shaped st'.grid n := by
  intro fuel
  induction fuel with
  | zero =>
    intro st st' _ h
    rw [carveRun] at h
    exact Option.noConfusion h
  | succ fuel ih =>
    intro st st' hs h
    rw [carveRun] at h
    cases hstk : st.stack with
    | nil =>
      rw [hstk] at h
      simp only [Option.some.injEq] at h
      rw [← h]
      exact hs
    | cons current rest =>
      rw [hstk] at h
      dsimp only at h
      by_cases hne : (carveNeighbors n st.visited current).isEmpty
      · rw [if_pos hne] at h
        exact ih ⟨st.grid, rest, st.visited, st.rng⟩ _ hs h
      · rw [if_neg hne] at h
        exact ih _ _ ((hs.mset _ _).mset _ _) h

theorem generate_props {m m' : Maze} {rng : Rng}
    (h : m.generate rng = some m') :
    m'.size = m.size ∧ m'.start = m.start ∧ m'.goal = m.goal ∧
      (Shaped m.grid m.size → Shaped m'.grid m.size) := by
  unfold Maze.generate at h
  cases hc : carveRun m.size (carveFuel m.size)
      ⟨m.grid, [m.start],
        setV (List.replicate m.size (List.replicate m.size false)) m.start true,
        rng⟩ with
  | none => rw [hc] at h; exact Option.noConfusion h
  | some stC =>
    rw [hc] at h
    dsimp only at h
    cases hi : injectLoop m.size { m with grid := stC.grid } stC.rng with
    | none => rw [hi] at h; exact Option.noConfusion h
    | some pr =>
      obtain ⟨m2, rng2⟩ := pr
      rw [hi] at h
      dsimp only at h
      obtain ⟨hsz, hst, hgl, _, hshape⟩ := injectLoop_props _ _ _ _ _ hi
      have hsh2 : Shaped m.grid m.size → Shaped m2.grid m.size := by
        intro hs
        exact hshape m.size (carveRun_shape m.size _ _ _ hs hc)
      split at h
      · simp only [Option.some.injEq] at h
        rw [← h]
        exact ⟨hsz, hst, hgl, fun hs => ((hsh2 hs).mset _ _).mset _ _⟩
      · simp only [Option.some.injEq] at h
        rw [← h]
        unfold repair
        exact ⟨hsz, hst, hgl, fun hs => (((hsh2 hs).mset _ _).mset _ _).mset _ _⟩

theorem generate_isSome {m : Maze} (rng : Rng) (h3 : 3 ≤ m.size) :
    (m.generate rng).isSome = true := by
  unfold Maze.generate
  have hvs0 : Shaped (setV (List.replicate m.size (List.replicate m.size false))
      m.start true) m.size := (Shaped.replicate m.size false).mset m.start true
  have hmeas : 2 * falseCount (setV (List.replicate m.size (List.replicate m.size false))
      m.start true) + ([m.start] : List Pos).length < carveFuel m.size := by
    have := falseCount_le hvs0
    unfold carveFuel
    simp only [List.length_cons, List.length_nil]
    omega
  obtain ⟨stC, hc⟩ := Option.isSome_iff_exists.mp
    (carveRun_isSome m.size (carveFuel m.size) ⟨m.grid, [m.start],
      setV (List.replicate m.size (List.replicate m.size false)) m.start true, rng⟩
      hvs0 hmeas)
  rw [hc]
  dsimp only
  obtain ⟨⟨m2, rng2⟩, hi⟩ := Option.isSome_iff_exists.mp
    (injectLoop_isSome m.size { m with grid := stC.grid } stC.rng h3)
  rw [hi]
  dsimp only
  split
  · rfl
  · rfl

theorem generate_solvable {rng : Rng} {m m' : Maze}
    (hodd : m.size % 2 = 1) (h5 : 5 ≤ m.size)
    (hst : m.start = (1, 1)) (hgl : m.goal = (m.size - 2, m.size - 2))
    (hgs0 : Shaped m.grid m.size)
    (hgen : m.generate rng = some m') : m'.is_solvable = true := by
  unfold Maze.generate at hgen
  have hvs0 : Shaped (setV (List.replicate m.size (List.replicate m.size false))
      m.start true) m.size := (Shaped.replicate m.size false).mset m.start true
  have hsb : inBounds m.size m.start := by
    rw [hst]
    exact ⟨by omega, by omega⟩
  have hsvis : getV (setV (List.replicate m.size (List.replicate m.size false))
      m.start true) m.start = true :=
    getV_setV_self (Shaped.replicate m.size false) hsb
  cases hc : carveRun m.size (carveFuel m.size)
      ⟨m.grid, [m.start],
        setV (List.replicate m.size (List.replicate m.size false)) m.start true,
        rng⟩ with
  | none => rw [hc] at hgen; exact Option.noConfusion hgen
  | some stC =>
    rw [hc] at hgen
    dsimp only at hgen
    have hCinv : CInv m.size m.start
        ⟨m.grid, [m.start],
          setV (List.replicate m.size (List.replicate m.size false)) m.start true,
          rng⟩ := by
      refine ⟨hgs0, hvs0, ?_, ?_, ?_, ?_⟩
      · intro p hp
        rcases getV_setV_elim hp with hps | hfresh
        · subst hps
          exact PReach.base
        · rw [getV_fresh] at hfresh
          exact Bool.noConfusion hfresh
      · intro p hp
        rcases List.mem_cons.mp hp with hps | hnil
        · subst hps
          exact hsvis
        · exact absurd hnil (List.not_mem_nil p)
      · intro p hp
        rcases List.mem_cons.mp hp with hps | hnil
        · subst hps
          rw [hst]
          exact ⟨by omega, by omega⟩
        · exact absurd hnil (List.not_mem_nil p)
      · intro p hp hpstk
        rcases getV_setV_elim hp with hps | hfresh
        · subst hps
          exact absurd (List.mem_cons_self _ _) hpstk
        · rw [getV_fresh] at hfresh
          exact Bool.noConfusion hfresh
    obtain ⟨hCinv', hstkE, hmonoV⟩ := carveRun_inv m.size m.start _ _ _ hCinv hc
    obtain ⟨hgsC, hvsC, hv1C, _, _, hv4C⟩ := hCinv'
    have hstartC : getV stC.visited (1, 1) = true := by
      rw [← hst]
      exact hmonoV m.start hsvis
    have hclosedC : ∀ p, getV stC.visited p = true →
        ∀ q, latNbr m.size p q → getV stC.visited q = true := by
      intro p hp q hq
      refine hv4C p hp ?_ q hq
      rw [hstkE]
      exact List.not_mem_nil p
    have hgoalvis : getV stC.visited (m.size - 2, m.size - 2) = true :=
      lattice_span hodd h5 hstartC hclosedC
    have hreachC : PReach stC.grid m.size m.start m.goal := by
      rw [hgl]
      exact hv1C _ hgoalvis
    cases hi : injectLoop m.size { m with grid := stC.grid } stC.rng with
    | none => rw [hi] at hgen; exact Option.noConfusion hgen
    | some pr =>
      obtain ⟨m2, rng2⟩ := pr
      rw [hi] at hgen
      dsimp only at hgen
      obtain ⟨hsz2, hst2, hgl2, hmono2, _⟩ := injectLoop_props _ _ _ _ _ hi
      have hsz2' : m2.size = m.size := hsz2
      have hst2' : m2.start = m.start := hst2
      have hgl2' : m2.goal = m.goal := hgl2
      have hmono2' : ∀ q, get2 stC.grid q = Cell.Path → get2 m2.grid q = Cell.Path :=
        hmono2
      have hreach3 : PReach (set2 (set2 m2.grid m2.start Cell.Path) m2.goal Cell.Path)
          m.size m.start m.goal := by
        refine PReach_mono ?_ (PReach_mono hmono2' hreachC)
        intro q hq
        exact get2_set2_path (get2_set2_path hq)
      have hm3solv : (Maze.mk m2.size
          (set2 (set2 m2.grid m2.start Cell.Path) m2.goal Cell.Path)
          m2.start m2.goal).is_solvable = true := by
        refine solvable_complete ?_
        show PReach (set2 (set2 m2.grid m2.start Cell.Path) m2.goal Cell.Path)
          m2.size m2.start m2.goal
        rw [← hsz2', ← hst2', ← hgl2'] at hreach3
        exact hreach3
      split at hgen
      case isTrue hsolv =>
        simp only [Option.some.injEq] at hgen
        rw [← hgen]
        exact hsolv
      case isFalse hsolv =>
        exact absurd hm3solv hsolv

/-! ## Grid-write lemmas for the solver -/

theorem get2_set2_cases (g : Grid) (p q : Pos) (c : Cell) :
    get2 (set2 g q c) p = c ∨ get2 (set2 g q c) p = get2 g p :=
  mget_mset_cases Cell.Wall c g p q

theorem notVisited_set2 {g : Grid} {z c : Pos} {v : Cell} (hv : v ≠ Cell.Visited)
    (h : get2 g z ≠ Cell.Visited) : get2 (set2 g c v) z ≠ Cell.Visited := by
  rcases get2_set2_cases g z c v with hc | hc
  · rw [hc]; exact hv
  · rw [hc]; exact h

theorem notVisited_set2_ne {g : Grid} {z c : Pos} {v : Cell} (hne : z ≠ c)
    (h : get2 g z ≠ Cell.Visited) : get2 (set2 g c v) z ≠ Cell.Visited := by
  rw [get2_set2_ne v hne]; exact h

theorem notVisited_foldSolution {z : Pos} :
    ∀ (l : List Pos) (g : Grid), get2 g z ≠ Cell.Visited →
      get2 (l.foldl (fun gr p => set2 gr p Cell.Solution) g) z ≠ Cell.Visited := by
  intro l
  induction l with
  | nil => intro g h; exact h
  | cons p rest ih =>
    intro g h
    exact ih _ (notVisited_set2 (by decide) h)

theorem wallIff_set2 {g : Grid} {c : Pos} {v : Cell} (hc : get2 g c ≠ Cell.Wall)
    (hv : v ≠ Cell.Wall) (q : Pos) :
    (get2 (set2 g c v) q = Cell.Wall ↔ get2 g q = Cell.Wall) := by
  by_cases hqc : q = c
  · subst hqc
    rcases get2_set2_cases g q q v with h | h
    · rw [h]
      exact ⟨fun hw => absurd hw hv, fun hw => absurd hw hc⟩
    · rw [h]
  · rw [get2_set2_ne v hqc]

theorem wallIff_foldSolution :
    ∀ (l : List Pos) (g : Grid), (∀ p ∈ l, get2 g p ≠ Cell.Wall) →
      ∀ q, (get2 (l.foldl (fun gr p => set2 gr p Cell.Solution) g) q = Cell.Wall ↔
        get2 g q = Cell.Wall) := by
  intro l
  induction l with
  | nil => intro g _ q; exact Iff.rfl
  | cons p rest ih =>
    intro g hl q
    have h1 : ∀ q', (get2 (set2 g p Cell.Solution) q' = Cell.Wall ↔ get2 g q' = Cell.Wall) :=
      wallIff_set2 (hl p (List.mem_cons_self p rest)) (by decide)
    have h2 : ∀ p' ∈ rest, get2 (set2 g p Cell.Solution) p' ≠ Cell.Wall := by
      intro p' hp' hw
      exact hl p' (List.mem_cons_of_mem p hp') ((h1 p').mp hw)
    simp only [List.foldl_cons]
    constructor
    · intro hw
      exact (h1 q).mp ((ih _ h2 q).mp hw)
    · intro hw
      exact (ih _ h2 q).mpr ((h1 q).mpr hw)

theorem minOpt_bound {bound : Nat} {a b : Option Nat}
    (ha : ∀ w, a = some w → bound < w) (hb : ∀ w, b = some w → bound < w) :
    ∀ w, minOpt a b = some w → bound < w := by
  intro w h
  match a, b, h with
  | none, b, h => exact hb w h
  | some x, none, h =>
    rw [minOpt] at h
    exact ha w h
  | some x, some y, h =>
    rw [minOpt] at h
    simp only [Option.some.injEq] at h
    have hx := ha x rfl
    have hy := hb y rfl
    omega

theorem nodup_length_le {n : Nat} (l : List Pos) (hnd : l.Nodup)
    (hb : ∀ p ∈ l, inBounds n p) : l.length ≤ n * n := by
  have hcard : l.toFinset.card = l.length := List.toFinset_card_of_nodup hnd
  have hsub : l.toFinset ⊆ Finset.range n ×ˢ Finset.range n := by
    intro p hp
    have hm := List.mem_toFinset.mp hp
    obtain ⟨h1, h2⟩ := hb p hm
    rw [Finset.mem_product, Finset.mem_range, Finset.mem_range]
    exact ⟨h1, h2⟩
  have := Finset.card_le_card hsub
  rw [hcard, Finset.card_product, Finset.card_range] at this
  exact this

/-! ## Basic invariants of the recursive search -/

theorem searchF_succ (fuel : Nat) (m : Maze) (g bound : Nat) (st : SearchState) :
    searchF (fuel + 1) m g bound st =
      (let current := st.path.getLast?.getD (0, 0)
       let f := g + manhattan m current
       let m1 : Maze := { m with grid := set2 m.grid current Cell.Current }
       if bound < f then
         let m2 := if current = m.start then m1
           else { m1 with grid := set2 m1.grid current Cell.Visited }
         some (.NewBound (some f), m2, st)
       else if current = m.goal then
         let m2 :=
           { m1 with grid := st.path.foldl (fun gr p => set2 gr p Cell.Solution) m1.grid }
         some (.Found st.path, m2, st)
       else
         let st1 : SearchState := { st with visited := setV st.visited current true }
         match searchGo fuel m1 g bound (getMoves m1 g st1.visited current) st1 none with
         | none => none
         | some (Sum.inl (sol, m2, st2)) => some (.Found sol, m2, st2)
         | some (Sum.inr (mb, m2, st2)) =>
           let m3 := if current = m.start then m2
             else { m2 with grid := set2 m2.grid current Cell.Visited }
           some (.NewBound mb, m3, st2)) := rfl

theorem searchGo_nil (fuel : Nat) (m : Maze) (g bound : Nat) (st : SearchState)
    (minB : Option Nat) :
    searchGo fuel m g bound [] st minB = some (Sum.inr (minB, m, st)) := rfl

theorem searchGo_cons (fuel : Nat) (m : Maze) (g bound : Nat) (mv : Nat × Pos)
    (rest : List (Nat × Pos)) (st : SearchState) (minB : Option Nat) :
    searchGo fuel m g bound (mv :: rest) st minB =
      (if st.path.contains mv.2 then
        searchGo fuel m g bound rest st minB
      else
        match searchF fuel m (g + 1) bound { st with path := st.path ++ [mv.2] } with
        | none => none
        | some (.Found sol, m', st') => some (Sum.inl (sol, m', st'))
        | some (.NewBound nb, m', st') =>
          searchGo fuel m' g bound rest { st' with path := st'.path.dropLast }
            (minOpt minB nb)) := rfl

theorem search_basic :
    ∀ fuel : Nat,
      (∀ (m : Maze) (g bound : Nat) (st : SearchState) (r : SearchResult)
          (m' : Maze) (st' : SearchState),
          searchF fuel m g bound st = some (r, m', st') →
          (m'.size = m.size ∧ m'.start = m.start ∧ m'.goal = m.goal) ∧
          (∀ q, getV st.visited q = true → getV st'.visited q = true) ∧
          (get2 m.grid m.start ≠ Cell.Visited → get2 m'.grid m.start ≠ Cell.Visited) ∧
          (∀ v, r = SearchResult.NewBound v → st'.path = st.path ∧
            ∀ w, v = some w → bound < w)) ∧
      (∀ (m : Maze) (g bound : Nat) (mvs : List (Nat × Pos)) (st : SearchState)
          (minB : Option Nat) (out : GoOut),
          searchGo fuel m g bound mvs st minB = some out →
          (∀ w, minB = some w → bound < w) →
          ((outMaze out).size = m.size ∧ (outMaze out).start = m.start ∧
            (outMaze out).goal = m.goal) ∧
          (∀ q, getV st.visited q = true → getV (outState out).visited q = true) ∧
          (get2 m.grid m.start ≠ Cell.Visited →
            get2 (outMaze out).grid m.start ≠ Cell.Visited) ∧
          (∀ mb m2 st2, out = Sum.inr (mb, m2, st2) → st2.path = st.path ∧
            ∀ w, mb = some w → bound < w)) := by
  intro fuel
  induction fuel with
  | zero =>
    constructor
    · intro m g bound st r m' st' h
      rw [searchF] at h
      exact Option.noConfusion h
    · intro m g bound mvs
      induction mvs generalizing m with
      | nil =>
        intro st minB out h hminB
        rw [searchGo_nil] at h
        simp only [Option.some.injEq] at h
        subst h
        refine ⟨⟨rfl, rfl, rfl⟩, fun q hq => hq, fun hv => hv, ?_⟩
        intro mb m2 st2 hout
        simp only [Sum.inr.injEq, Prod.mk.injEq] at hout
        obtain ⟨h1, h2, h3⟩ := hout
        subst h1
        subst h3
        exact ⟨rfl, hminB⟩
      | cons mv rest ihl =>
        intro st minB out h hminB
        rw [searchGo_cons] at h
        by_cases hct : st.path.contains mv.2
        · rw [if_pos hct] at h
          exact ihl m st minB out h hminB
        · rw [if_neg hct] at h
          rw [searchF] at h
          exact Option.noConfusion h
  | succ fuel ih =>
    obtain ⟨ihF, ihG⟩ := ih
    have hF : ∀ (m : Maze) (g bound : Nat) (st : SearchState) (r : SearchResult)
        (m' : Maze) (st' : SearchState),
        searchF (fuel + 1) m g bound st = some (r, m', st') →
        (m'.size = m.size ∧ m'.start = m.start ∧ m'.goal = m.goal) ∧
        (∀ q, getV st.visited q = true → getV st'.visited q = true) ∧
        (get2 m.grid m.start ≠ Cell.Visited → get2 m'.grid m.start ≠ Cell.Visited) ∧
        (∀ v, r = SearchResult.NewBound v → st'.path = st.path ∧
          ∀ w, v = some w → bound < w) := by
      intro m g bound st r m' st' h
      rw [searchF_succ] at h
      dsimp only at h
      by_cases hb : bound < g + manhattan m (st.path.getLast?.getD (0, 0))
      · rw [if_pos hb] at h
        by_cases hcs : st.path.getLast?.getD (0, 0) = m.start
        · rw [if_pos hcs] at h
          simp only [Option.some.injEq, Prod.mk.injEq] at h
          obtain ⟨hr, hm, hst⟩ := h
          subst hr
          subst hm
          subst hst
          refine ⟨⟨rfl, rfl, rfl⟩, fun q hq => hq, ?_, ?_⟩
          · intro hnv
            exact notVisited_set2 (by decide) hnv
          · intro v hv
            injection hv with hv'
            subst hv'
            exact ⟨rfl, fun w hw => by injection hw with hw'; omega⟩
        · rw [if_neg hcs] at h
          simp only [Option.some.injEq, Prod.mk.injEq] at h
          obtain ⟨hr, hm, hst⟩ := h
          subst hr
          subst hm
          subst hst
          refine ⟨⟨rfl, rfl, rfl⟩, fun q hq => hq, ?_, ?_⟩
          · intro hnv
            exact notVisited_set2_ne (fun hc => hcs hc.symm)
              (notVisited_set2 (by decide) hnv)
          · intro v hv
            injection hv with hv'
            subst hv'
            exact ⟨rfl, fun w hw => by injection hw with hw'; omega⟩
      · rw [if_neg hb] at h
        by_cases hgoal : st.path.getLast?.getD (0, 0) = m.goal
        · rw [if_pos hgoal] at h
          simp only [Option.some.injEq, Prod.mk.injEq] at h
          obtain ⟨hr, hm, hst⟩ := h
          subst hr
          subst hm
          subst hst
          refine ⟨⟨rfl, rfl, rfl⟩, fun q hq => hq, ?_, ?_⟩
          · intro hnv
            exact notVisited_foldSolution st.path _ (notVisited_set2 (by decide) hnv)
          · intro v hv
            exact SearchResult.noConfusion hv
        · rw [if_neg hgoal] at h
          cases hgo : searchGo fuel
              { m with grid := set2 m.grid (st.path.getLast?.getD (0, 0)) Cell.Current }
              g bound
              (getMoves { m with grid := set2 m.grid (st.path.getLast?.getD (0, 0)) Cell.Current }
                g (setV st.visited (st.path.getLast?.getD (0, 0)) true)
                (st.path.getLast?.getD (0, 0)))
              { st with visited := setV st.visited (st.path.getLast?.getD (0, 0)) true }
              none with
          | none => rw [hgo] at h; exact Option.noConfusion h
          | some out =>
            rw [hgo] at h
            have gB := ihG _ g bound _ _ none out hgo
              (fun w hw => Option.noConfusion hw)
            obtain ⟨gf, gmono, gnv, ginr⟩ := gB
            cases out with
            | inl triple =>
              obtain ⟨sol, m2, st2⟩ := triple
              dsimp only at h
              simp only [Option.some.injEq, Prod.mk.injEq] at h
              obtain ⟨hr, hm, hst⟩ := h
              subst hr
              subst hm
              subst hst
              refine ⟨⟨gf.1, gf.2.1, gf.2.2⟩, ?_, ?_, ?_⟩
              · intro q hq
                exact gmono q (getV_setV_mono hq)
              · intro hnv
                exact gnv (notVisited_set2 (by decide) hnv)
              · intro v hv
                exact SearchResult.noConfusion hv
            | inr triple =>
              obtain ⟨mb, m2, st2⟩ := triple
              dsimp only at h
              by_cases hcs : st.path.getLast?.getD (0, 0) = m.start
              · rw [if_pos hcs] at h
                simp only [Option.some.injEq, Prod.mk.injEq] at h
                obtain ⟨hr, hm, hst⟩ := h
                subst hr
                subst hm
                subst hst
                refine ⟨⟨gf.1, gf.2.1, gf.2.2⟩, ?_, ?_, ?_⟩
                · intro q hq
                  exact gmono q (getV_setV_mono hq)
                · intro hnv
                  exact gnv (notVisited_set2 (by decide) hnv)
                · intro v hv
                  injection hv with hv'
                  subst hv'
                  obtain ⟨hpath, hbound⟩ := ginr mb m2 st2 rfl
                  exact ⟨hpath, hbound⟩
              · rw [if_neg hcs] at h
                simp only [Option.some.injEq, Prod.mk.injEq] at h
                obtain ⟨hr, hm, hst⟩ := h
                subst hr
                subst hm
                subst hst
                refine ⟨⟨gf.1, gf.2.1, gf.2.2⟩, ?_, ?_, ?_⟩
                · intro q hq
                  exact gmono q (getV_setV_mono hq)
                · intro hnv
                  exact notVisited_set2_ne (fun hc => hcs hc.symm)
                    (gnv (notVisited_set2 (by decide) hnv))
                · intro v hv
                  injection hv with hv'
                  subst hv'
                  obtain ⟨hpath, hbound⟩ := ginr mb m2 st2 rfl
                  exact ⟨hpath, hbound⟩
    refine ⟨hF, ?_⟩
    intro m g bound mvs
    induction mvs generalizing m with
    | nil =>
      intro st minB out h hminB
      rw [searchGo_nil] at h
      simp only [Option.some.injEq] at h
      subst h
      refine ⟨⟨rfl, rfl, rfl⟩, fun q hq => hq, fun hv => hv, ?_⟩
      intro mb m2 st2 hout
      simp only [Sum.inr.injEq, Prod.mk.injEq] at hout
      obtain ⟨h1, h2, h3⟩ := hout
      subst h1
      subst h3
      exact ⟨rfl, hminB⟩
    | cons mv rest ihl =>
      intro st minB out h hminB
      rw [searchGo_cons] at h
      by_cases hct : st.path.contains mv.2
      · rw [if_pos hct] at h
        exact ihl m st minB out h hminB
      · rw [if_neg hct] at h
        cases hch : searchF (fuel + 1) m (g + 1) bound
            { st with path := st.path ++ [mv.2] } with
        | none => rw [hch] at h; exact Option.noConfusion h
        | some trip =>
          obtain ⟨rc, mc, stc⟩ := trip
          rw [hch] at h
          obtain ⟨cf, cmono, cnv, cnbp⟩ := hF m (g + 1) bound _ _ _ _ hch
          cases rc with
          | Found sol =>
            dsimp only at h
            simp only [Option.some.injEq] at h
            subst h
            refine ⟨⟨cf.1, cf.2.1, cf.2.2⟩, ?_, ?_, ?_⟩
            · intro q hq
              exact cmono q hq
            · intro hnv
              exact cnv hnv
            · intro mb m2 st2 hout
              exact Sum.noConfusion hout
          | NewBound nb =>
            dsimp only at h
            obtain ⟨cpath, cbound⟩ := cnbp nb rfl
            have hmb' : ∀ w, minOpt minB nb = some w → bound < w :=
              minOpt_bound hminB cbound
            have gB := ihl mc { stc with path := stc.path.dropLast }
              (minOpt minB nb) out h hmb'
            obtain ⟨gf, gmono, gnv, ginr⟩ := gB
            refine ⟨?_, ?_, ?_, ?_⟩
            · exact ⟨gf.1.trans cf.1, gf.2.1.trans cf.2.1, gf.2.2.trans cf.2.2⟩
            · intro q hq
              exact gmono q (cmono q hq)
            · intro hnv
              have h1 := cnv hnv
              rw [← cf.2.1] at h1
              have h2 := gnv h1
              rw [cf.2.1] at h2
              exact h2
            · intro mb m2 st2 hout
              obtain ⟨gpath, gbound⟩ := ginr mb m2 st2 hout
              refine ⟨?_, gbound⟩
              rw [gpath]
              dsimp only
              rw [cpath]
              dsimp only
              exact List.dropLast_concat

theorem getLastD_mem {l : List Pos} (h : l ≠ []) : l.getLast?.getD (0, 0) ∈ l := by
  obtain ⟨a, ha⟩ := Option.isSome_iff_exists.mp (List.getLast?_isSome.mpr h)
  rw [ha]
  exact List.mem_of_mem_getLast? ha

theorem mem_insertMove {x y : Nat × Pos} :
    ∀ l : List (Nat × Pos), y ∈ insertMove x l ↔ y = x ∨ y ∈ l := by
  intro l
  induction l with
  | nil =>
    simp [insertMove]
  | cons z zs ih =>
    rw [insertMove]
    by_cases hz : z.1 ≤ x.1
    · rw [if_pos hz]
      simp only [List.mem_cons, ih]
      tauto
    · rw [if_neg hz]
      simp only [List.mem_cons]

theorem mem_sortMoves_aux {y : Nat × Pos} :
    ∀ (l acc : List (Nat × Pos)),
      (y ∈ l.foldl (fun a x => insertMove x a) acc ↔ y ∈ acc ∨ y ∈ l) := by
  intro l
  induction l with
  | nil => intro acc; simp
  | cons z zs ih =>
    intro acc
    simp only [List.foldl_cons, ih, mem_insertMove, List.mem_cons]
    tauto

theorem mem_sortMoves {y : Nat × Pos} (l : List (Nat × Pos)) :
    y ∈ sortMoves l ↔ y ∈ l := by
  rw [sortMoves, mem_sortMoves_aux]
  simp

theorem getMoves_mem {m : Maze} {g : Nat} {vis : VisM} {c : Pos} {mv : Nat × Pos}
    (h : mv ∈ getMoves m g vis c) :
    adjacent c mv.2 ∧ inBounds m.size mv.2 ∧ get2 m.grid mv.2 ≠ Cell.Wall ∧
      getV vis mv.2 = false := by
  rw [getMoves, mem_sortMoves] at h
  simp only [List.mem_filterMap, dirs4, List.mem_cons, List.not_mem_nil, or_false] at h
  obtain ⟨d, hd, hf⟩ := h
  have hcases : d = ((0 : Int), (1 : Int)) ∨ d = (1, 0) ∨ d = (0, -1) ∨ d = (-1, 0) := hd
  rcases hcases with rfl | rfl | rfl | rfl
  all_goals
    split at hf
    case isTrue hcond =>
      obtain ⟨hx, hx', hy, hy', hw, hv⟩ := hcond
      simp only [Option.some.injEq] at hf
      subst hf
      exact ⟨ofDir_adjacent (by simp [dirs4]) hx hy, ofDir_inBounds hx hx' hy hy', hw, hv⟩
    case isFalse => exact Option.noConfusion hf

/-! ## Wall-frame invariant of the recursive search -/

theorem search_frame :
    ∀ fuel : Nat,
      (∀ (m : Maze) (g bound : Nat) (st : SearchState) (r : SearchResult)
          (m' : Maze) (st' : SearchState),
          searchF fuel m g bound st = some (r, m', st') →
          st.path ≠ [] → (∀ p ∈ st.path, get2 m.grid p ≠ Cell.Wall) →
          (∀ q, (get2 m'.grid q = Cell.Wall ↔ get2 m.grid q = Cell.Wall)) ∧
          (∀ p ∈ st'.path, get2 m'.grid p ≠ Cell.Wall)) ∧
      (∀ (m : Maze) (g bound : Nat) (mvs : List (Nat × Pos)) (st : SearchState)
          (minB : Option Nat) (out : GoOut),
          searchGo fuel m g bound mvs st minB = some out →
          st.path ≠ [] → (∀ p ∈ st.path, get2 m.grid p ≠ Cell.Wall) →
          (∀ mv ∈ mvs, get2 m.grid mv.2 ≠ Cell.Wall) →
          (∀ q, (get2 (outMaze out).grid q = Cell.Wall ↔ get2 m.grid q = Cell.Wall)) ∧
          (∀ p ∈ (outState out).path, get2 (outMaze out).grid p ≠ Cell.Wall)) := by
  intro fuel
  induction fuel with
  | zero =>
    constructor
    · intro m g bound st r m' st' h
      rw [searchF] at h
      exact Option.noConfusion h
    · intro m g bound mvs
      induction mvs generalizing m with
      | nil =>
        intro st minB out h hne hpath hmvs
        rw [searchGo_nil] at h
        simp only [Option.some.injEq] at h
        subst h
        exact ⟨fun q => Iff.rfl, hpath⟩
      | cons mv rest ihl =>
        intro st minB out h hne hpath hmvs
        rw [searchGo_cons] at h
        by_cases hct : st.path.contains mv.2
        · rw [if_pos hct] at h
          exact ihl m st minB out h hne hpath
            (fun mv' hmv' => hmvs mv' (List.mem_cons_of_mem mv hmv'))
        · rw [if_neg hct] at h
          rw [searchF] at h
          exact Option.noConfusion h
  | succ fuel ih =>
    obtain ⟨ihF, ihG⟩ := ih
    have hF : ∀ (m : Maze) (g bound : Nat) (st : SearchState) (r : SearchResult)
        (m' : Maze) (st' : SearchState),
        searchF (fuel + 1) m g bound st = some (r, m', st') →
        st.path ≠ [] → (∀ p ∈ st.path, get2 m.grid p ≠ Cell.Wall) →
        (∀ q, (get2 m'.grid q = Cell.Wall ↔ get2 m.grid q = Cell.Wall)) ∧
        (∀ p ∈ st'.path, get2 m'.grid p ≠ Cell.Wall) := by
      intro m g bound st r m' st' h hne hpath
      have hcur : st.path.getLast?.getD (0, 0) ∈ st.path := getLastD_mem hne
      have hcurW : get2 m.grid (st.path.getLast?.getD (0, 0)) ≠ Cell.Wall :=
        hpath _ hcur
      have hiff1 : ∀ q,
          (get2 (set2 m.grid (st.path.getLast?.getD (0, 0)) Cell.Current) q = Cell.Wall ↔
            get2 m.grid q = Cell.Wall) :=
        wallIff_set2 hcurW (by decide)
      have hpath1 : ∀ p ∈ st.path,
          get2 (set2 m.grid (st.path.getLast?.getD (0, 0)) Cell.Current) p ≠ Cell.Wall :=
        fun p hp hw => hpath p hp ((hiff1 p).mp hw)
      rw [searchF_succ] at h
      dsimp only at h
      by_cases hb : bound < g + manhattan m (st.path.getLast?.getD (0, 0))
      · rw [if_pos hb] at h
        by_cases hcs : st.path.getLast?.getD (0, 0) = m.start
        · rw [if_pos hcs] at h
          simp only [Option.some.injEq, Prod.mk.injEq] at h
          obtain ⟨hr, hm, hst⟩ := h
          subst hm
          subst hst
          exact ⟨hiff1, hpath1⟩
        · rw [if_neg hcs] at h
          simp only [Option.some.injEq, Prod.mk.injEq] at h
          obtain ⟨hr, hm, hst⟩ := h
          subst hm
          subst hst
          have hiff2 : ∀ q,
              (get2 (set2 (set2 m.grid (st.path.getLast?.getD (0, 0)) Cell.Current)
                (st.path.getLast?.getD (0, 0)) Cell.Visited) q = Cell.Wall ↔
                get2 (set2 m.grid (st.path.getLast?.getD (0, 0)) Cell.Current) q
                  = Cell.Wall) :=
            wallIff_set2 (hpath1 _ hcur) (by decide)
          refine ⟨fun q => (hiff2 q).trans (hiff1 q), ?_⟩
          intro p hp hw
          exact hpath1 p hp ((hiff2 p).mp hw)
      · rw [if_neg hb] at h
        by_cases hgoal : st.path.getLast?.getD (0, 0) = m.goal
        · rw [if_pos hgoal] at h
          simp only [Option.some.injEq, Prod.mk.injEq] at h
          obtain ⟨hr, hm, hst⟩ := h
          subst hm
          subst hst
          have hiff2 := wallIff_foldSolution st.path _ hpath1
          refine ⟨fun q => (hiff2 q).trans (hiff1 q), ?_⟩
          intro p hp hw
          exact hpath1 p hp ((hiff2 p).mp hw)
        · rw [if_neg hgoal] at h
          cases hgo : searchGo fuel
              { m with grid := set2 m.grid (st.path.getLast?.getD (0, 0)) Cell.Current }
              g bound
              (getMoves { m with grid := set2 m.grid (st.path.getLast?.getD (0, 0)) Cell.Current }
                g (setV st.visited (st.path.getLast?.getD (0, 0)) true)
                (st.path.getLast?.getD (0, 0)))
              { st with visited := setV st.visited (st.path.getLast?.getD (0, 0)) true }
              none with
          | none => rw [hgo] at h; exact Option.noConfusion h
          | some out =>
            rw [hgo] at h
            have hmvsW : ∀ mv ∈ getMoves
                { m with grid := set2 m.grid (st.path.getLast?.getD (0, 0)) Cell.Current }
                g (setV st.visited (st.path.getLast?.getD (0, 0)) true)
                (st.path.getLast?.getD (0, 0)),
                get2 ({ m with grid := set2 m.grid (st.path.getLast?.getD (0, 0)) Cell.Current }).grid mv.2
                  ≠ Cell.Wall :=
              fun mv hmv => (getMoves_mem hmv).2.2.1
            have gB := ihG _ g bound _ _ none out hgo hne hpath1 hmvsW
            obtain ⟨giff, gpath⟩ := gB
            cases out with
            | inl triple =>
              obtain ⟨sol, m2, st2⟩ := triple
              dsimp only at h
              simp only [Option.some.injEq, Prod.mk.injEq] at h
              obtain ⟨hr, hm, hst⟩ := h
              subst hm
              subst hst
              exact ⟨fun q => (giff q).trans (hiff1 q), gpath⟩
            | inr triple =>
              obtain ⟨mb, m2, st2⟩ := triple
              dsimp only at h
              have hst2path : st2.path = st.path := by
                have := ((search_basic fuel).2 _ g bound _ _ none _ hgo
                  (fun w hw => Option.noConfusion hw)).2.2.2 mb m2 st2 rfl
                exact this.1
              have hcur2 : get2 m2.grid (st.path.getLast?.getD (0, 0)) ≠ Cell.Wall := by
                intro hw
                exact hpath1 _ hcur ((giff _).mp hw)
              by_cases hcs : st.path.getLast?.getD (0, 0) = m.start
              · rw [if_pos hcs] at h
                simp only [Option.some.injEq, Prod.mk.injEq] at h
                obtain ⟨hr, hm, hst⟩ := h
                subst hm
                subst hst
                refine ⟨fun q => (giff q).trans (hiff1 q), ?_⟩
                intro p hp
                rw [hst2path] at hp
                intro hw
                exact hpath p hp ((hiff1 p).mp ((giff p).mp hw))
              · rw [if_neg hcs] at h
                simp only [Option.some.injEq, Prod.mk.injEq] at h
                obtain ⟨hr, hm, hst⟩ := h
                subst hm
                subst hst
                have hiff3 : ∀ q,
                    (get2 (set2 m2.grid (st.path.getLast?.getD (0, 0)) Cell.Visited) q
                      = Cell.Wall ↔ get2 m2.grid q = Cell.Wall) :=
                  wallIff_set2 hcur2 (by decide)
                refine ⟨fun q => ((hiff3 q).trans (giff q)).trans (hiff1 q), ?_⟩
                intro p hp
                rw [hst2path] at hp
                intro hw
                exact hpath p hp ((hiff1 p).mp ((giff p).mp ((hiff3 p).mp hw)))
    refine ⟨hF, ?_⟩
    intro m g bound mvs
    induction mvs generalizing m with
    | nil =>
      intro st minB out h hne hpath hmvs
      rw [searchGo_nil] at h
      simp only [Option.some.injEq] at h
      subst h
      exact ⟨fun q => Iff.rfl, hpath⟩
    | cons mv rest ihl =>
      intro st minB out h hne hpath hmvs
      rw [searchGo_cons] at h
      by_cases hct : st.path.contains mv.2
      · rw [if_pos hct] at h
        exact ihl m st minB out h hne hpath
          (fun mv' hmv' => hmvs mv' (List.mem_cons_of_mem mv hmv'))
      · rw [if_neg hct] at h
        cases hch : searchF (fuel + 1) m (g + 1) bound
            { st with path := st.path ++ [mv.2] } with
        | none => rw [hch] at h; exact Option.noConfusion h
        | some trip =>
          obtain ⟨rc, mc, stc⟩ := trip
          rw [hch] at h
          have hne' : st.path ++ [mv.2] ≠ [] := by
            intro hcontr
            exact absurd (List.append_eq_nil.mp hcontr).2 (by simp)
          have hpath' : ∀ p ∈ st.path ++ [mv.2], get2 m.grid p ≠ Cell.Wall := by
            intro p hp
            rcases List.mem_append.mp hp with h' | h'
            · exact hpath p h'
            · rw [List.mem_singleton] at h'
              subst h'
              exact hmvs mv (List.mem_cons_self mv rest)
          obtain ⟨ciff, cpathW⟩ := hF m (g + 1) bound _ _ _ _ hch hne' hpath'
          cases rc with
          | Found sol =>
            dsimp only at h
            simp only [Option.some.injEq] at h
            subst h
            exact ⟨ciff, cpathW⟩
          | NewBound nb =>
            dsimp only at h
            have hcpath : stc.path = st.path ++ [mv.2] :=
              (((search_basic (fuel + 1)).1 m (g + 1) bound _ _ _ _ hch).2.2.2 nb rfl).1
            have hne'' : ({ stc with path := stc.path.dropLast } : SearchState).path ≠ [] := by
              dsimp only
              rw [hcpath, List.dropLast_concat]
              exact hne
            have hpath'' : ∀ p ∈ ({ stc with path := stc.path.dropLast } : SearchState).path,
                get2 mc.grid p ≠ Cell.Wall := by
              dsimp only
              rw [hcpath, List.dropLast_concat]
              intro p hp hw
              exact hpath p hp ((ciff p).mp hw)
            have hmvs'' : ∀ mv' ∈ rest, get2 mc.grid mv'.2 ≠ Cell.Wall := by
              intro mv' hmv' hw
              exact hmvs mv' (List.mem_cons_of_mem mv hmv') ((ciff mv'.2).mp hw)
            obtain ⟨giff, gpathW⟩ := ihl mc { stc with path := stc.path.dropLast }
              (minOpt minB nb) out h hne'' hpath'' hmvs''
            exact ⟨fun q => (giff q).trans (ciff q), gpathW⟩

theorem getLast?_eq_getD {l : List Pos} (h : l ≠ []) :
    l.getLast? = some (l.getLast?.getD (0, 0)) := by
  obtain ⟨a, ha⟩ := Option.isSome_iff_exists.mp (List.getLast?_isSome.mpr h)
  rw [ha]
  rfl

theorem nodup_concat_of {l : List Pos} {a : Pos} (h : l.Nodup) (h2 : a ∉ l) :
    (l ++ [a]).Nodup := by
  rw [List.nodup_append]
  refine ⟨h, List.nodup_singleton a, ?_⟩
  intro x hx hy
  rw [List.mem_singleton] at hy
  subst hy
  exact h2 hx

theorem chain_concat_of {l : List Pos} {a : Pos} (h : l.Chain' adjacent)
    (hne : l ≠ []) (hadj : adjacent (l.getLast?.getD (0, 0)) a) :
    (l ++ [a]).Chain' adjacent := by
  rw [List.chain'_append]
  refine ⟨h, List.chain'_singleton a, ?_⟩
  intro x hx y hy
  rw [getLast?_eq_getD hne, Option.mem_def, Option.some.injEq] at hx
  rw [List.head?_cons, Option.mem_def, Option.some.injEq] at hy
  subst hx
  subst hy
  exact hadj

/-! ## Validity of a returned path -/

theorem search_valid :
    ∀ fuel : Nat,
      (∀ (m : Maze) (g bound : Nat) (st : SearchState) (r : SearchResult)
          (m' : Maze) (st' : SearchState),
          searchF fuel m g bound st = some (r, m', st') →
          st.path ≠ [] → st.path.head? = some m.start → st.path.Chain' adjacent →
          st.path.Nodup →
          (∀ p ∈ st.path, inBounds m.size p ∧ get2 m.grid p ≠ Cell.Wall) →
          ∀ sol, r = SearchResult.Found sol →
            sol.head? = some m.start ∧ sol.getLast? = some m.goal ∧
            sol.Chain' adjacent ∧ sol.Nodup ∧
            ∀ p ∈ sol, inBounds m.size p ∧ get2 m.grid p ≠ Cell.Wall) ∧
      (∀ (m : Maze) (g bound : Nat) (mvs : List (Nat × Pos)) (st : SearchState)
          (minB : Option Nat) (out : GoOut),
          searchGo fuel m g bound mvs st minB = some out →
          st.path ≠ [] → st.path.head? = some m.start → st.path.Chain' adjacent →
          st.path.Nodup →
          (∀ p ∈ st.path, inBounds m.size p ∧ get2 m.grid p ≠ Cell.Wall) →
          (∀ mv ∈ mvs, adjacent (st.path.getLast?.getD (0, 0)) mv.2 ∧
            inBounds m.size mv.2 ∧ get2 m.grid mv.2 ≠ Cell.Wall) →
          ∀ sol m2 st2, out = Sum.inl (sol, m2, st2) →
            sol.head? = some m.start ∧ sol.getLast? = some m.goal ∧
            sol.Chain' adjacent ∧ sol.Nodup ∧
            ∀ p ∈ sol, inBounds m.size p ∧ get2 m.grid p ≠ Cell.Wall) := by
  intro fuel
  induction fuel with
  | zero =>
    constructor
    · intro m g bound st r m' st' h
      rw [searchF] at h
      exact Option.noConfusion h
    · intro m g bound mvs
      induction mvs generalizing m with
      | nil =>
        intro st minB out h hne hhead hchain hnd hcells hmvs sol m2 st2 hout
        rw [searchGo_nil] at h
        simp only [Option.some.injEq] at h
        subst h
        exact Sum.noConfusion hout
      | cons mv rest ihl =>
        intro st minB out h hne hhead hchain hnd hcells hmvs sol m2 st2 hout
        rw [searchGo_cons] at h
        by_cases hct : st.path.contains mv.2
        · rw [if_pos hct] at h
          exact ihl m st minB out h hne hhead hchain hnd hcells
            (fun mv' hmv' => hmvs mv' (List.mem_cons_of_mem mv hmv')) sol m2 st2 hout
        · rw [if_neg hct] at h
          rw [searchF] at h
          exact Option.noConfusion h
  | succ fuel ih =>
    obtain ⟨ihF, ihG⟩ := ih
    have hF : ∀ (m : Maze) (g bound : Nat) (st : SearchState) (r : SearchResult)
        (m' : Maze) (st' : SearchState),
        searchF (fuel + 1) m g bound st = some (r, m', st') →
        st.path ≠ [] → st.path.head? = some m.start → st.path.Chain' adjacent →
        st.path.Nodup →
        (∀ p ∈ st.path, inBounds m.size p ∧ get2 m.grid p ≠ Cell.Wall) →
        ∀ sol, r = SearchResult.Found sol →
          sol.head? = some m.start ∧ sol.getLast? = some m.goal ∧
          sol.Chain' adjacent ∧ sol.Nodup ∧
          ∀ p ∈ sol, inBounds m.size p ∧ get2 m.grid p ≠ Cell.Wall := by
      intro m g bound st r m' st' h hne hhead hchain hnd hcells
      rw [searchF_succ] at h
      dsimp only at h
      by_cases hb : bound < g + manhattan m (st.path.getLast?.getD (0, 0))
      · rw [if_pos hb] at h
        by_cases hcs : st.path.getLast?.getD (0, 0) = m.start
        all_goals
          first
          | rw [if_pos hcs] at h
          | rw [if_neg hcs] at h
        all_goals
          simp only [Option.some.injEq, Prod.mk.injEq] at h
          obtain ⟨hr, hm, hst⟩ := h
          intro sol hsol
          rw [← hr] at hsol
          exact SearchResult.noConfusion hsol
      · rw [if_neg hb] at h
        by_cases hgoal : st.path.getLast?.getD (0, 0) = m.goal
        · rw [if_pos hgoal] at h
          simp only [Option.some.injEq, Prod.mk.injEq] at h
          obtain ⟨hr, hm, hst⟩ := h
          intro sol hsol
          rw [← hr] at hsol
          injection hsol with hsol'
          subst hsol'
          refine ⟨hhead, ?_, hchain, hnd, hcells⟩
          rw [getLast?_eq_getD hne, hgoal]
        · rw [if_neg hgoal] at h
          cases hgo : searchGo fuel
              { m with grid := set2 m.grid (st.path.getLast?.getD (0, 0)) Cell.Current }
              g bound
              (getMoves { m with grid := set2 m.grid (st.path.getLast?.getD (0, 0)) Cell.Current }
                g (setV st.visited (st.path.getLast?.getD (0, 0)) true)
                (st.path.getLast?.getD (0, 0)))
              { st with visited := setV st.visited (st.path.getLast?.getD (0, 0)) true }
              none with
          | none => rw [hgo] at h; exact Option.noConfusion h
          | some out =>
            rw [hgo] at h
            have hcur : st.path.getLast?.getD (0, 0) ∈ st.path := getLastD_mem hne
            have hiff1 : ∀ q,
                (get2 (set2 m.grid (st.path.getLast?.getD (0, 0)) Cell.Current) q
                  = Cell.Wall ↔ get2 m.grid q = Cell.Wall) :=
              wallIff_set2 (hcells _ hcur).2 (by decide)
            have hcells1 : ∀ p ∈ st.path, inBounds m.size p ∧
                get2 (set2 m.grid (st.path.getLast?.getD (0, 0)) Cell.Current) p
                  ≠ Cell.Wall := by
              intro p hp
              exact ⟨(hcells p hp).1, fun hw => (hcells p hp).2 ((hiff1 p).mp hw)⟩
            have hmvs1 : ∀ mv ∈ getMoves
                { m with grid := set2 m.grid (st.path.getLast?.getD (0, 0)) Cell.Current }
                g (setV st.visited (st.path.getLast?.getD (0, 0)) true)
                (st.path.getLast?.getD (0, 0)),
                adjacent (st.path.getLast?.getD (0, 0)) mv.2 ∧
                  inBounds m.size mv.2 ∧
                  get2 (set2 m.grid (st.path.getLast?.getD (0, 0)) Cell.Current) mv.2
                    ≠ Cell.Wall := by
              intro mv hmv
              obtain ⟨hadj, hbnd, hw, _⟩ := getMoves_mem hmv
              exact ⟨hadj, hbnd, hw⟩
            cases out with
            | inl triple =>
              obtain ⟨sol0, m2, st2⟩ := triple
              dsimp only at h
              simp only [Option.some.injEq, Prod.mk.injEq] at h
              obtain ⟨hr, hm, hst⟩ := h
              intro sol hsol
              rw [← hr] at hsol
              injection hsol with hsol'
              subst hsol'
              obtain ⟨c1, c2, c3, c4, c5⟩ := ihG _ g bound _ _ none _ hgo hne hhead
                hchain hnd hcells1 hmvs1 sol0 m2 st2 rfl
              refine ⟨c1, c2, c3, c4, ?_⟩
              intro p hp
              exact ⟨(c5 p hp).1, fun hw => (c5 p hp).2 ((hiff1 p).mpr hw)⟩
            | inr triple =>
              obtain ⟨mb, m2, st2⟩ := triple
              dsimp only at h
              by_cases hcs : st.path.getLast?.getD (0, 0) = m.start
              all_goals
                first
                | rw [if_pos hcs] at h
                | rw [if_neg hcs] at h
              all_goals
                simp only [Option.some.injEq, Prod.mk.injEq] at h
                obtain ⟨hr, hm, hst⟩ := h
                intro sol hsol
                rw [← hr] at hsol
                exact SearchResult.noConfusion hsol
    refine ⟨hF, ?_⟩
    intro m g bound mvs
    induction mvs generalizing m with
    | nil =>
      intro st minB out h hne hhead hchain hnd hcells hmvs sol m2 st2 hout
      rw [searchGo_nil] at h
      simp only [Option.some.injEq] at h
      subst h
      exact Sum.noConfusion hout
    | cons mv rest ihl =>
      intro st minB out h hne hhead hchain hnd hcells hmvs sol m2 st2 hout
      rw [searchGo_cons] at h
      by_cases hct : st.path.contains mv.2
      · rw [if_pos hct] at h
        exact ihl m st minB out h hne hhead hchain hnd hcells
          (fun mv' hmv' => hmvs mv' (List.mem_cons_of_mem mv hmv')) sol m2 st2 hout
      · rw [if_neg hct] at h
        cases hch : searchF (fuel + 1) m (g + 1) bound
            { st with path := st.path ++ [mv.2] } with
        | none => rw [hch] at h; exact Option.noConfusion h
        | some trip =>
          obtain ⟨rc, mc, stc⟩ := trip
          rw [hch] at h
          have hnotmem : mv.2 ∉ st.path := by
            intro hm'
            exact hct (List.elem_eq_true_of_mem hm')
          have hmv0 := hmvs mv (List.mem_cons_self mv rest)
          have hne' : st.path ++ [mv.2] ≠ [] := by
            intro hcontr
            exact absurd (List.append_eq_nil.mp hcontr).2 (by simp)
          have hhead' : (st.path ++ [mv.2]).head? = some m.start := by
            rw [List.head?_append, hhead]
            rfl
          have hchain' : (st.path ++ [mv.2]).Chain' adjacent :=
            chain_concat_of hchain hne hmv0.1
          have hnd' : (st.path ++ [mv.2]).Nodup := nodup_concat_of hnd hnotmem
          have hcells' : ∀ p ∈ st.path ++ [mv.2],
              inBounds m.size p ∧ get2 m.grid p ≠ Cell.Wall := by
            intro p hp
            rcases List.mem_append.mp hp with h' | h'
            · exact hcells p h'
            · rw [List.mem_singleton] at h'
              subst h'
              exact ⟨hmv0.2.1, hmv0.2.2⟩
          cases rc with
          | Found sol0 =>
            dsimp only at h
            simp only [Option.some.injEq] at h
            subst h
            have := hF m (g + 1) bound _ _ _ _ hch hne' hhead' hchain' hnd' hcells'
              sol0 rfl
            simp only [Sum.inl.injEq, Prod.mk.injEq] at hout
            obtain ⟨hsol0, _, _⟩ := hout
            subst hsol0
            exact this
          | NewBound nb =>
            dsimp only at h
            obtain ⟨hcf, _, _, hcnb⟩ :=
              (search_basic (fuel + 1)).1 m (g + 1) bound _ _ _ _ hch
            have hcpath : stc.path = st.path ++ [mv.2] := (hcnb nb rfl).1
            obtain ⟨hciff, _⟩ := (search_frame (fuel + 1)).1 m (g + 1) bound _ _ _ _
              hch hne' (fun p hp => (hcells' p hp).2)
            have hstpath : ({ stc with path := stc.path.dropLast } : SearchState).path
                = st.path := by
              dsimp only
              rw [hcpath, List.dropLast_concat]
            have hne'' : ({ stc with path := stc.path.dropLast } : SearchState).path
                ≠ [] := by
              rw [hstpath]
              exact hne
            have hhead'' : ({ stc with path := stc.path.dropLast } : SearchState).path.head?
                = some mc.start := by
              rw [hstpath, hcf.2.1]
              exact hhead
            have hchain'' :
                ({ stc with path := stc.path.dropLast } : SearchState).path.Chain'
                  adjacent := by
              rw [hstpath]
              exact hchain
            have hnd'' : ({ stc with path := stc.path.dropLast } : SearchState).path.Nodup
                := by
              rw [hstpath]
              exact hnd
            have hcells'' : ∀ p ∈ ({ stc with path := stc.path.dropLast } :
                SearchState).path, inBounds mc.size p ∧ get2 mc.grid p ≠ Cell.Wall := by
              rw [hstpath]
              intro p hp
              refine ⟨?_, ?_⟩
              · rw [hcf.1]
                exact (hcells p hp).1
              · intro hw
                exact (hcells p hp).2 ((hciff p).mp hw)
            have hmvs'' : ∀ mv' ∈ rest,
                adjacent (({ stc with path := stc.path.dropLast } :
                  SearchState).path.getLast?.getD (0, 0)) mv'.2 ∧
                inBounds mc.size mv'.2 ∧ get2 mc.grid mv'.2 ≠ Cell.Wall := by
              intro mv' hmv'
              have h0 := hmvs mv' (List.mem_cons_of_mem mv hmv')
              refine ⟨?_, ?_, ?_⟩
              · rw [hstpath]
                exact h0.1
              · rw [hcf.1]
                exact h0.2.1
              · intro hw
                exact h0.2.2 ((hciff mv'.2).mp hw)
            obtain ⟨c1, c2, c3, c4, c5⟩ := ihl mc
              { stc with path := stc.path.dropLast } (minOpt minB nb) out h
              hne'' hhead'' hchain'' hnd'' hcells'' hmvs'' sol m2 st2 hout
            rw [hcf.2.1] at c1
            rw [hcf.2.2] at c2
            refine ⟨c1, c2, c3, c4, ?_⟩
            intro p hp
            obtain ⟨hb', hw'⟩ := c5 p hp
            refine ⟨?_, ?_⟩
            · rw [hcf.1] at hb'
              exact hb'
            · intro hw
              exact hw' ((hciff p).mpr hw)

/-! ## Totality of the search under sufficient fuel -/

theorem search_total :
    ∀ fuel : Nat,
      (∀ (m : Maze) (g bound : Nat) (st : SearchState),
        st.path.Nodup → (∀ p ∈ st.path, inBounds m.size p) →
        m.size * m.size + 2 ≤ fuel + st.path.length →
        (searchF fuel m g bound st).isSome = true) ∧
      (∀ (m : Maze) (g bound : Nat) (mvs : List (Nat × Pos)) (st : SearchState)
          (minB : Option Nat),
        st.path.Nodup → (∀ p ∈ st.path, inBounds m.size p) →
        (∀ mv ∈ mvs, inBounds m.size mv.2) →
        m.size * m.size + 1 ≤ fuel + st.path.length →
        (searchGo fuel m g bound mvs st minB).isSome = true) := by
  intro fuel
  induction fuel with
  | zero =>
    constructor
    · intro m g bound st hnd hbnd hfuel
      have := nodup_length_le st.path hnd hbnd
      omega
    · intro m g bound mvs st minB hnd hbnd hmvs hfuel
      have := nodup_length_le st.path hnd hbnd
      omega
  | succ fuel ih =>
    obtain ⟨ihF, ihG⟩ := ih
    have hF : ∀ (m : Maze) (g bound : Nat) (st : SearchState),
        st.path.Nodup → (∀ p ∈ st.path, inBounds m.size p) →
        m.size * m.size + 2 ≤ fuel + 1 + st.path.length →
        (searchF (fuel + 1) m g bound st).isSome = true := by
      intro m g bound st hnd hbnd hfuel
      rw [searchF_succ]
      dsimp only
      by_cases hb : bound < g + manhattan m (st.path.getLast?.getD (0, 0))
      · rw [if_pos hb]
        by_cases hcs : st.path.getLast?.getD (0, 0) = m.start
        · rw [if_pos hcs]; rfl
        · rw [if_neg hcs]; rfl
      · rw [if_neg hb]
        by_cases hgoal : st.path.getLast?.getD (0, 0) = m.goal
        · rw [if_pos hgoal]; rfl
        · rw [if_neg hgoal]
          have hmvsB : ∀ mv ∈ getMoves
              { m with grid := set2 m.grid (st.path.getLast?.getD (0, 0)) Cell.Current }
              g (setV st.visited (st.path.getLast?.getD (0, 0)) true)
              (st.path.getLast?.getD (0, 0)), inBounds m.size mv.2 :=
            fun mv hmv => (getMoves_mem hmv).2.1
          have hgoSome := ihG
            { m with grid := set2 m.grid (st.path.getLast?.getD (0, 0)) Cell.Current }
            g bound
            (getMoves { m with grid := set2 m.grid (st.path.getLast?.getD (0, 0)) Cell.Current }
              g (setV st.visited (st.path.getLast?.getD (0, 0)) true)
              (st.path.getLast?.getD (0, 0)))
            { st with visited := setV st.visited (st.path.getLast?.getD (0, 0)) true }
            none hnd hbnd hmvsB (by dsimp only; omega)
          obtain ⟨out, hgo⟩ := Option.isSome_iff_exists.mp hgoSome
          rw [hgo]
          cases out with
          | inl triple =>
            obtain ⟨sol, m2, st2⟩ := triple
            rfl
          | inr triple =>
            obtain ⟨mb, m2, st2⟩ := triple
            dsimp only
            by_cases hcs : st.path.getLast?.getD (0, 0) = m.start
            · rw [if_pos hcs]; rfl
            · rw [if_neg hcs]; rfl
    refine ⟨hF, ?_⟩
    intro m g bound mvs
    induction mvs generalizing m with
    | nil =>
      intro st minB _ _ _ _
      rw [searchGo_nil]
      rfl
    | cons mv rest ihl =>
      intro st minB hnd hbnd hmvs hfuel
      rw [searchGo_cons]
      by_cases hct : st.path.contains mv.2
      · rw [if_pos hct]
        exact ihl m st minB hnd hbnd
          (fun mv' hmv' => hmvs mv' (List.mem_cons_of_mem mv hmv')) hfuel
      · rw [if_neg hct]
        have hnotmem : mv.2 ∉ st.path := by
          intro hm'
          exact hct (List.elem_eq_true_of_mem hm')
        have hnd' : (st.path ++ [mv.2]).Nodup := nodup_concat_of hnd hnotmem
        have hbnd' : ∀ p ∈ st.path ++ [mv.2], inBounds m.size p := by
          intro p hp
          rcases List.mem_append.mp hp with h' | h'
          · exact hbnd p h'
          · rw [List.mem_singleton] at h'
            subst h'
            exact hmvs mv (List.mem_cons_self mv rest)
        have hchSome := hF m (g + 1) bound { st with path := st.path ++ [mv.2] }
          hnd' hbnd'
          (by dsimp only
              simp only [List.length_append, List.length_cons, List.length_nil]
              omega)
        obtain ⟨trip, hch⟩ := Option.isSome_iff_exists.mp hchSome
        rw [hch]
        obtain ⟨rc, mc, stc⟩ := trip
        cases rc with
        | Found sol => rfl
        | NewBound nb =>
          dsimp only
          obtain ⟨hcf, _, _, hcnb⟩ :=
            (search_basic (fuel + 1)).1 m (g + 1) bound _ _ _ _ hch
          have hcpath : stc.path = st.path ++ [mv.2] := (hcnb nb rfl).1
          have hstpath : ({ stc with path := stc.path.dropLast } : SearchState).path
              = st.path := by
            dsimp only
            rw [hcpath, List.dropLast_concat]
          refine ihl mc { stc with path := stc.path.dropLast } (minOpt minB nb)
            ?_ ?_ ?_ ?_
          · rw [hstpath]
            exact hnd
          · rw [hstpath]
            intro p hp
            rw [hcf.1]
            exact hbnd p hp
          · intro mv' hmv'
            rw [hcf.1]
            exact hmvs mv' (List.mem_cons_of_mem mv hmv')
          · rw [hstpath, hcf.1]
            omega

/-! ## The bound-escalation loop -/

theorem idaLoop_ceiling (fuel : Nat) (m : Maze) (bound : Nat) (st : SearchState)
    (h : m.size * m.size ≤ bound) :
    idaLoop (fuel + 1) m bound st = some (none, m) := by
  rw [idaLoop, if_neg (by omega)]

theorem idaLoop_found {fuel : Nat} {m m' : Maze} {bound : Nat} {st st' : SearchState}
    {sol : List Pos} (hlt : bound < m.size * m.size)
    (hs : searchF (searchFuel m.size) m 0 bound st
      = some (SearchResult.Found sol, m', st')) :
    idaLoop (fuel + 1) m bound st = some (some sol, m') := by
  rw [idaLoop, if_pos hlt, hs]

theorem idaLoop_newBound_inf {fuel : Nat} {m m' : Maze} {bound : Nat}
    {st st' : SearchState} (hlt : bound < m.size * m.size)
    (hs : searchF (searchFuel m.size) m 0 bound st
      = some (SearchResult.NewBound none, m', st')) :
    idaLoop (fuel + 1) m bound st =
      idaLoop fuel m' (bound + m.size) ⟨[m'.start], st'.visited⟩ := by
  rw [idaLoop, if_pos hlt, hs]

theorem idaLoop_newBound_fin {fuel : Nat} {m m' : Maze} {bound nv : Nat}
    {st st' : SearchState} (hlt : bound < m.size * m.size)
    (hs : searchF (searchFuel m.size) m 0 bound st
      = some (SearchResult.NewBound (some nv), m', st')) :
    idaLoop (fuel + 1) m bound st =
      idaLoop fuel m' (nv + m.size / 2) ⟨[m'.start], st'.visited⟩ := by
  rw [idaLoop, if_pos hlt, hs]

theorem idaLoop_isSome :
    ∀ (fuel : Nat) (m : Maze) (bound : Nat) (st : SearchState),
      2 ≤ m.size → m.start = (1, 1) → st.path = [m.start] →
      m.size * m.size < bound + (fuel + 1) →
      (idaLoop (fuel + 1) m bound st).isSome = true := by
  intro fuel
  induction fuel with
  | zero =>
    intro m bound st h2 _ _ hb
    rw [idaLoop_ceiling 0 m bound st (by omega)]
    rfl
  | succ fuel ih =>
    intro m bound st h2 hst hpath hb
    by_cases hlt : bound < m.size * m.size
    · have hnd : st.path.Nodup := by rw [hpath]; exact List.nodup_singleton _
      have hbnd : ∀ p ∈ st.path, inBounds m.size p := by
        rw [hpath]
        intro p hp
        rcases List.mem_cons.mp hp with h' | h'
        · subst h'
          rw [hst]
          exact ⟨by omega, by omega⟩
        · exact absurd h' (List.not_mem_nil p)
      have hsSome := (search_total (searchFuel m.size)).1 m 0 bound st hnd hbnd
        (by rw [hpath]; unfold searchFuel; simp only [List.length_cons, List.length_nil]
            omega)
      obtain ⟨⟨r, m', st'⟩, hs⟩ := Option.isSome_iff_exists.mp hsSome
      obtain ⟨hf, _, _, hnb⟩ :=
        (search_basic (searchFuel m.size)).1 m 0 bound st r m' st' hs
      cases r with
      | Found sol =>
        rw [idaLoop_found hlt hs]
        rfl
      | NewBound v =>
        have hb' := (hnb v rfl).2
        cases v with
        | none =>
          rw [idaLoop_newBound_inf hlt hs]
          refine ih m' (bound + m.size) ⟨[m'.start], st'.visited⟩ ?_ ?_ rfl ?_
          · rw [hf.1]; exact h2
          · rw [hf.2.1]; exact hst
          · rw [hf.1]; omega
        | some nv =>
          have hnv : bound < nv := hb' nv rfl
          rw [idaLoop_newBound_fin hlt hs]
          refine ih m' (nv + m.size / 2) ⟨[m'.start], st'.visited⟩ ?_ ?_ rfl ?_
          · rw [hf.1]; exact h2
          · rw [hf.2.1]; exact hst
          · rw [hf.1]; omega
    · rw [idaLoop_ceiling (fuel + 1) m bound st (by omega)]
      rfl

theorem idaLoop_notVisited :
    ∀ (fuel : Nat) (m : Maze) (bound : Nat) (st : SearchState)
      (res : Option (List Pos)) (m' : Maze),
      idaLoop fuel m bound st = some (res, m') →
      get2 m.grid m.start ≠ Cell.Visited →
      m'.start = m.start ∧ get2 m'.grid m.start ≠ Cell.Visited := by
  intro fuel
  induction fuel with
  | zero =>
    intro m bound st res m' h
    rw [idaLoop] at h
    exact Option.noConfusion h
  | succ fuel ih =>
    intro m bound st res m' h hnv
    by_cases hlt : bound < m.size * m.size
    · rw [idaLoop, if_pos hlt] at h
      cases hs : searchF (searchFuel m.size) m 0 bound st with
      | none => rw [hs] at h; exact Option.noConfusion h
      | some trip =>
        obtain ⟨r, m2, st2⟩ := trip
        rw [hs] at h
        obtain ⟨hf, _, hnv2, _⟩ :=
          (search_basic (searchFuel m.size)).1 m 0 bound st r m2 st2 hs
        cases r with
        | Found sol =>
          dsimp only at h
          simp only [Option.some.injEq, Prod.mk.injEq] at h
          rw [← h.2]
          exact ⟨hf.2.1, hnv2 hnv⟩
        | NewBound v =>
          dsimp only at h
          have := ih m2
            (match v with
             | none => bound + m.size
             | some nv => nv + m.size / 2)
            ⟨[m2.start], st2.visited⟩ res m' ?hrun ?hnv'
          case hrun =>
            cases v with
            | none => exact h
            | some nv => exact h
          case hnv' =>
            rw [hf.2.1]
            exact hnv2 hnv
          obtain ⟨hst', hnv'⟩ := this
          rw [hf.2.1] at hst' hnv'
          exact ⟨hst', hnv'⟩
    · rw [idaLoop_ceiling fuel m bound st (by omega)] at h
      simp only [Option.some.injEq, Prod.mk.injEq] at h
      rw [← h.2]
      exact ⟨rfl, hnv⟩

theorem idaLoop_frame_valid :
    ∀ (fuel : Nat) (m : Maze) (bound : Nat) (st : SearchState)
      (res : Option (List Pos)) (m' : Maze),
      idaLoop fuel m bound st = some (res, m') →
      2 ≤ m.size → m.start = (1, 1) →
      st.path = [m.start] →
      get2 m.grid m.start ≠ Cell.Wall →
      (m'.size = m.size ∧ m'.start = m.start ∧ m'.goal = m.goal) ∧
      (∀ q, get2 m'.grid q = Cell.Wall ↔ get2 m.grid q = Cell.Wall) ∧
      (∀ sol, res = some sol →
        sol.head? = some m.start ∧ sol.getLast? = some m.goal ∧
        sol.Chain' adjacent ∧ sol.Nodup ∧
        ∀ p ∈ sol, inBounds m.size p ∧ get2 m.grid p ≠ Cell.Wall) := by
  intro fuel
  induction fuel with
  | zero =>
    intro m bound st res m' h
    rw [idaLoop] at h
    exact Option.noConfusion h
  | succ fuel ih =>
    intro m bound st res m' h h2 hst hpath hsw
    have hne : st.path ≠ [] := by rw [hpath]; simp
    have hmem : ∀ p ∈ st.path, get2 m.grid p ≠ Cell.Wall := by
      rw [hpath]
      intro p hp
      rcases List.mem_cons.mp hp with h' | h'
      · subst h'; exact hsw
      · exact absurd h' (List.not_mem_nil p)
    have hmemB : ∀ p ∈ st.path, inBounds m.size p ∧ get2 m.grid p ≠ Cell.Wall := by
      intro p hp
      refine ⟨?_, hmem p hp⟩
      rw [hpath] at hp
      rcases List.mem_cons.mp hp with h' | h'
      · subst h'
        rw [hst]
        exact ⟨by omega, by omega⟩
      · exact absurd h' (List.not_mem_nil p)
    have hhead : st.path.head? = some m.start := by rw [hpath]; rfl
    have hchain : st.path.Chain' adjacent := by
      rw [hpath]; exact List.chain'_singleton _
    have hnd : st.path.Nodup := by rw [hpath]; exact List.nodup_singleton _
    by_cases hlt : bound < m.size * m.size
    · rw [idaLoop, if_pos hlt] at h
      cases hs : searchF (searchFuel m.size) m 0 bound st with
      | none => rw [hs] at h; exact Option.noConfusion h
      | some trip =>
        obtain ⟨r, m2, st2⟩ := trip
        rw [hs] at h
        obtain ⟨hf, _, _, _⟩ :=
          (search_basic (searchFuel m.size)).1 m 0 bound st r m2 st2 hs
        obtain ⟨hiff, _⟩ :=
          (search_frame (searchFuel m.size)).1 m 0 bound st r m2 st2 hs hne hmem
        cases r with
        | Found sol =>
          dsimp only at h
          simp only [Option.some.injEq, Prod.mk.injEq] at h
          obtain ⟨hres, hm'⟩ := h
          subst hm'
          refine ⟨⟨hf.1, hf.2.1, hf.2.2⟩, hiff, ?_⟩
          intro sol' hsol'
          rw [← hres] at hsol'
          simp only [Option.some.injEq] at hsol'
          subst hsol'
          exact (search_valid (searchFuel m.size)).1 m 0 bound st _ m2 st2 hs hne
            hhead hchain hnd hmemB sol rfl
        | NewBound v =>
          dsimp only at h
          have hsw2 : get2 m2.grid m2.start ≠ Cell.Wall := by
            rw [hf.2.1]
            intro hw
            exact hsw ((hiff m.start).mp hw)
          have hrun : idaLoop fuel m2
              (match v with
               | none => bound + m.size
               | some nv => nv + m.size / 2)
              ⟨[m2.start], st2.visited⟩ = some (res, m') := by
            cases v with
            | none => exact h
            | some nv => exact h
          obtain ⟨gf, giff, gvalid⟩ := ih m2 _ ⟨[m2.start], st2.visited⟩ res m' hrun
            (by rw [hf.1]; exact h2) (by rw [hf.2.1]; exact hst) rfl hsw2
          refine ⟨⟨gf.1.trans hf.1, gf.2.1.trans hf.2.1, gf.2.2.trans hf.2.2⟩, ?_, ?_⟩
          · intro q
            exact (giff q).trans (hiff q)
          · intro sol hsol
            obtain ⟨c1, c2, c3, c4, c5⟩ := gvalid sol hsol
            rw [hf.2.1] at c1
            rw [hf.2.2] at c2
            refine ⟨c1, c2, c3, c4, ?_⟩
            intro p hp
            obtain ⟨hb', hw'⟩ := c5 p hp
            rw [hf.1] at hb'
            refine ⟨hb', ?_⟩
            intro hw
            exact hw' ((hiff p).mpr hw)
    · rw [idaLoop_ceiling fuel m bound st (by omega)] at h
      simp only [Option.some.injEq, Prod.mk.injEq] at h
      obtain ⟨hres, hm'⟩ := h
      subst hm'
      refine ⟨⟨rfl, rfl, rfl⟩, fun q => Iff.rfl, ?_⟩
      intro sol hsol
      rw [← hres] at hsol
      exact Option.noConfusion hsol

/-! ## BFS layer lemmas (optimality referee) -/

theorem bfsLayer_mono {m : Maze} {k : Nat} {p : Pos} (h : p ∈ bfsLayer m k) :
    p ∈ bfsLayer m (k + 1) := by
  rw [bfsLayer]
  rw [List.mem_dedup, List.mem_append]
  exact Or.inl h

theorem bfsLayer_step {m : Maze} {k : Nat} {p q : Pos} (hp : p ∈ bfsLayer m k)
    (hadj : adjacent p q) (hb : inBounds m.size q) (hw : get2 m.grid q ≠ Cell.Wall) :
    q ∈ bfsLayer m (k + 1) := by
  rw [bfsLayer]
  rw [List.mem_dedup, List.mem_append]
  right
  rw [List.mem_flatMap]
  refine ⟨p, hp, ?_⟩
  obtain ⟨d, hd, hqd, hx, hx', hy, hy'⟩ := adjacent_ofDir_cover hadj hb
  rw [List.mem_filterMap]
  refine ⟨d, hd, ?_⟩
  rw [if_pos ⟨hx, hx', hy, hy', by rw [← hqd]; exact hw⟩, ← hqd]

theorem route_bfs {m : Maze} :
    ∀ (l : List Pos) (k : Nat) (a : Pos), l.head? = some a → a ∈ bfsLayer m k →
      l.Chain' adjacent →
      (∀ p ∈ l, inBounds m.size p ∧ get2 m.grid p ≠ Cell.Wall) →
      l.getLast?.getD (0, 0) ∈ bfsLayer m (k + (l.length - 1)) := by
  intro l
  induction l with
  | nil => intro k a h; exact Option.noConfusion h
  | cons x xs ih =>
    intro k a hhead hlay hchain hcells
    rw [List.head?_cons, Option.some.injEq] at hhead
    subst hhead
    match xs with
    | [] =>
      simpa using hlay
    | y :: ys =>
      rw [List.chain'_cons] at hchain
      have hy := hcells y (List.mem_cons_of_mem x (List.mem_cons_self y ys))
      have hylay : y ∈ bfsLayer m (k + 1) := bfsLayer_step hlay hchain.1 hy.1 hy.2
      have := ih (k + 1) y List.head?_cons hylay hchain.2
        (fun p hp => hcells p (List.mem_cons_of_mem x hp))
      have hlast : (x :: y :: ys).getLast? = (y :: ys).getLast? :=
        List.getLast?_cons_cons
      rw [hlast]
      have harith : k + 1 + ((y :: ys).length - 1) = k + ((x :: y :: ys).length - 1) := by
        simp only [List.length_cons]
        omega
      rw [harith] at this
      exact this


/-! ## The claims -/

set_option maxRecDepth 100000

/-- The goal of `M3` is reachable by the breadth-first referee (it coincides
with the start). -/
theorem bfs_m3_reaches : ∃ k, bfsReaches M3 k := ⟨0, by decide⟩

/-- The goal of `M7` is reachable by the breadth-first referee within 8
steps. -/
theorem bfs_m7_reaches : ∃ k, bfsReaches M7 k := ⟨8, by decide⟩

/-- C1: for every odd grid size at least 5, whenever `Maze::new(size)`
succeeds and `generate` returns, the resulting maze satisfies
`is_solvable() = true`: the Wall/Path topology produced by generation
(including the repair step) contains a route of `Path` cells accepted by the
connectivity check. -/
theorem claim_C1 (size : Nat) (rng : Rng) (m m' : Maze)
    (hodd : size % 2 = 1) (h5 : 5 ≤ size)
    (hnew : Maze.new size = some m) (hgen : m.generate rng = some m') :
    m'.is_solvable = true := by
  rw [Maze.new, if_pos (show 2 ≤ size by omega)] at hnew
  dsimp only at hnew
  simp only [Option.some.injEq] at hnew
  subst hnew
  exact generate_solvable hodd h5 rfl rfl
    (((Shaped.replicate size Cell.Wall).mset (1, 1) Cell.Path).mset
      (size - 2, size - 2) Cell.Path) hgen

/-- C1 at size 5 with the all-zero random stream: the generated maze is
solvable. -/
theorem claim_C1_witness :
    Maze.new 5 = some M5 ∧ M5.generate rng0 = some M5gen ∧
      M5gen.is_solvable = true :=
  ⟨by decide, by decide,
    claim_C1 5 rng0 M5 M5gen (by decide) (by decide) (by decide) (by decide)⟩

/-- C2 (amended): whenever `ida_star` returns `Some(path)` on a grid whose
goal is reachable over non-`Wall` cells, the returned path is at least as
long as the shortest 4-directional route computed by the independent
breadth-first search (`shortestLen` counts steps, so the path has at least
`shortestLen + 1` cells); the original claim's equality does not hold. -/
theorem claim_C2 (m : Maze) (p : List Pos) (m' : Maze)
    (h2 : 2 ≤ m.size) (hst : m.start = (1, 1))
    (hsw : get2 m.grid m.start ≠ Cell.Wall)
    (hida : m.ida_star = some (some p, m'))
    (hreach : ∃ k, bfsReaches m k) :
    shortestLen m hreach + 1 ≤ p.length := by
  unfold Maze.ida_star at hida
  dsimp only at hida
  obtain ⟨-, -, hval⟩ := idaLoop_frame_valid _ m _ _ _ _ hida h2 hst rfl hsw
  obtain ⟨hhead, hlast, hchain, hnd, hcells⟩ := hval p rfl
  have hne : p ≠ [] := by
    intro h
    rw [h] at hhead
    exact Option.noConfusion hhead
  have hstart0 : m.start ∈ bfsLayer m 0 := List.mem_cons_self _ _
  have hgoal := route_bfs p 0 m.start hhead hstart0 hchain hcells
  have hgd : p.getLast?.getD (0, 0) = m.goal := by
    rw [hlast]
    rfl
  rw [hgd] at hgoal
  have hreach' : bfsReaches m (p.length - 1) := by
    have harith : 0 + (p.length - 1) = p.length - 1 := by omega
    rw [harith] at hgoal
    exact hgoal
  have hfind : shortestLen m hreach ≤ p.length - 1 := Nat.find_le hreach'
  have hlen : 1 ≤ p.length := by
    cases p with
    | nil => exact absurd rfl hne
    | cons a l => simp
  omega

/-- C2 amended instantiated on `M3`, whose one-cell path is exactly as long
as the shortest route. -/
theorem claim_C2_witness : shortestLen M3 bfs_m3_reaches + 1 ≤ M3sol.length :=
  claim_C2 M3 M3sol M3fin (by decide) rfl (by decide) (by decide) bfs_m3_reaches

/-- C2 counterexample: on `M7` the solver returns the 11-cell path `M7path`
(10 steps), while the breadth-first referee reaches the goal in 8 steps
(9 cells), so the returned length equals the shortest length under neither
the cell count nor the step count reading. -/
theorem claim_C2_counterexample :
    M7.ida_star.map (fun r => r.1) = some (some M7path) ∧
    bfsReaches M7 8 ∧
    shortestLen M7 bfs_m7_reaches ≠ M7path.length ∧
    shortestLen M7 bfs_m7_reaches + 1 ≠ M7path.length := by
  have h8 : shortestLen M7 bfs_m7_reaches ≤ 8 :=
    Nat.find_le (show bfsReaches M7 8 by decide)
  have hlen : M7path.length = 11 := by decide
  exact ⟨by decide, by decide, by omega, by omega⟩

/-- C3: whenever `ida_star` returns `Some(path)`, the path is a valid simple
route: it starts at `start`, ends at `goal`, each consecutive pair differs by
exactly one unit in exactly one coordinate, no position repeats, and every
position is in bounds and non-`Wall` in the input grid. -/
theorem claim_C3 (m : Maze) (p : List Pos) (m' : Maze)
    (h2 : 2 ≤ m.size) (hst : m.start = (1, 1))
    (hsw : get2 m.grid m.start ≠ Cell.Wall)
    (hida : m.ida_star = some (some p, m')) :
    validPath m p := by
  unfold Maze.ida_star at hida
  dsimp only at hida
  obtain ⟨-, -, hval⟩ := idaLoop_frame_valid _ m _ _ _ _ hida h2 hst rfl hsw
  exact hval p rfl

/-- C3 instantiated on `M3`: the returned one-cell path is valid. -/
theorem claim_C3_witness : validPath M3 M3sol :=
  claim_C3 M3 M3sol M3fin (by decide) rfl (by decide) (by decide)

/-- C4: the outer loop of `ida_star` starts with bound `3 * h(start)`; an
iteration below the `size * size` ceiling that yields `NewBound` continues
with `bound + size` on the infinity sentinel and with `v + size/2` on a
finite `v` (resetting the path, keeping the visited matrix); a bound at or
above the ceiling returns the no-solution outcome `none`; and a `Found`
iteration returns its solution. -/
theorem claim_C4 (m : Maze) :
    (m.ida_star = idaLoop (idaFuel m.size) m (3 * manhattan m m.start)
      ⟨[m.start], List.replicate m.size (List.replicate m.size false)⟩) ∧
    (∀ (fuel bound : Nat) (st : SearchState), m.size * m.size ≤ bound →
      idaLoop (fuel + 1) m bound st = some (none, m)) ∧
    (∀ (fuel bound : Nat) (st st' : SearchState) (m2 : Maze),
      bound < m.size * m.size →
      searchF (searchFuel m.size) m 0 bound st
        = some (SearchResult.NewBound none, m2, st') →
      idaLoop (fuel + 1) m bound st
        = idaLoop fuel m2 (bound + m.size) ⟨[m2.start], st'.visited⟩) ∧
    (∀ (fuel bound : Nat) (st st' : SearchState) (m2 : Maze) (nv : Nat),
      bound < m.size * m.size →
      searchF (searchFuel m.size) m 0 bound st
        = some (SearchResult.NewBound (some nv), m2, st') →
      idaLoop (fuel + 1) m bound st
        = idaLoop fuel m2 (nv + m.size / 2) ⟨[m2.start], st'.visited⟩) ∧
    (∀ (fuel bound : Nat) (st st' : SearchState) (m2 : Maze) (sol : List Pos),
      bound < m.size * m.size →
      searchF (searchFuel m.size) m 0 bound st
        = some (SearchResult.Found sol, m2, st') →
      idaLoop (fuel + 1) m bound st = some (some sol, m2)) := by
  refine ⟨rfl, ?_, ?_, ?_, ?_⟩
  · intro fuel bound st h
    exact idaLoop_ceiling fuel m bound st h
  · intro fuel bound st st' m2 hlt hs
    exact idaLoop_newBound_inf hlt hs
  · intro fuel bound st st' m2 nv hlt hs
    exact idaLoop_newBound_fin hlt hs
  · intro fuel bound st st' m2 sol hlt hs
    exact idaLoop_found hlt hs

/-- C4 instantiated on `M3`: the entry equation, and the ceiling exit at
bound 9 = 3 * 3. -/
theorem claim_C4_witness :
    M3.ida_star = idaLoop (idaFuel M3.size) M3 (3 * manhattan M3 M3.start)
      ⟨[M3.start], List.replicate M3.size (List.replicate M3.size false)⟩ ∧
    idaLoop 1 M3 9 ⟨[M3.start], List.replicate 3 (List.replicate 3 false)⟩
      = some (none, M3) :=
  ⟨(claim_C4 M3).1,
    (claim_C4 M3).2.1 0 9 ⟨[M3.start], List.replicate 3 (List.replicate 3 false)⟩
      (by decide)⟩

/-- C5 (amended): `is_solvable()` returns true iff there is a sequence of
4-adjacent cells from `start` to `goal` in which every cell after the first
is in bounds with state exactly `Path` -- the start cell itself is never
inspected by the DFS, so the original claim's all-cells route condition is
too strong.  (The embedded `is_solvable` is a pure function, so the
no-mutation part of the claim holds by construction.) -/
theorem claim_C5 (m : Maze) :
    m.is_solvable = true ↔ ∃ l, tailPathRoute m l := by
  constructor
  · intro h
    obtain ⟨l, h1, h2, h3, h4⟩ := PReach_route.mp (solvable_sound h)
    refine ⟨l, ?_⟩
    unfold tailPathRoute
    exact ⟨h1, h2, h3, h4⟩
  · intro h
    obtain ⟨l, hl⟩ := h
    unfold tailPathRoute at hl
    obtain ⟨h1, h2, h3, h4⟩ := hl
    exact solvable_complete (PReach_route.mpr ⟨l, h1, h2, h3, h4⟩)

/-- C5 amended instantiated on `M3`. -/
theorem claim_C5_witness :
    M3.is_solvable = true ↔ ∃ l, tailPathRoute M3 l := claim_C5 M3

/-- C5 counterexample: on the all-wall maze `MW3` (start = goal = (1,1)),
`is_solvable` returns true although no route of cells with state exactly
`Path` exists, refuting the claim's literal iff. -/
theorem claim_C5_counterexample :
    MW3.is_solvable = true ∧ ¬ ∃ l, allPathRoute MW3 l := by
  refine ⟨by decide, ?_⟩
  intro hex
  obtain ⟨l, h1, h2, h3, h4⟩ := hex
  have hmem : MW3.start ∈ l := by
    cases l with
    | nil => exact Option.noConfusion h1
    | cons x xs =>
      rw [List.head?_cons, Option.some.injEq] at h1
      rw [← h1]
      exact List.mem_cons_self x xs
  exact absurd (h4 _ hmem).2 (by decide)

/-- C6: the solver never alters the Wall/Path topology: a cell is `Wall`
after `ida_star` exactly if it was `Wall` before, and the same holds across
every intermediate recursive `search` call whose path cells are non-`Wall`. -/
theorem claim_C6 (m : Maze) (res : Option (List Pos)) (m' : Maze)
    (h2 : 2 ≤ m.size) (hst : m.start = (1, 1))
    (hsw : get2 m.grid m.start ≠ Cell.Wall)
    (hida : m.ida_star = some (res, m')) :
    (∀ q, get2 m'.grid q = Cell.Wall ↔ get2 m.grid q = Cell.Wall) ∧
    (∀ (fuel g bound : Nat) (st : SearchState) (r : SearchResult)
        (m2 : Maze) (st2 : SearchState),
        searchF fuel m g bound st = some (r, m2, st2) →
        st.path ≠ [] → (∀ p ∈ st.path, get2 m.grid p ≠ Cell.Wall) →
        ∀ q, get2 m2.grid q = Cell.Wall ↔ get2 m.grid q = Cell.Wall) := by
  constructor
  · unfold Maze.ida_star at hida
    dsimp only at hida
    exact (idaLoop_frame_valid _ m _ _ _ _ hida h2 hst rfl hsw).2.1
  · intro fuel g bound st r m2 st2 hs hne hp
    exact ((search_frame fuel).1 m g bound st r m2 st2 hs hne hp).1

/-- C6 instantiated on `M3` at the corner cell. -/
theorem claim_C6_witness :
    get2 M3fin.grid (0, 0) = Cell.Wall ↔ get2 M3.grid (0, 0) = Cell.Wall :=
  (claim_C6 M3 (some M3sol) M3fin (by decide) rfl (by decide) (by decide)).1 (0, 0)

/-- C7 (amended): the start cell is never marked `Visited`: every `search`
call and the whole of `ida_star` preserve `grid[start] != Visited` (the
start cell is, however, overlay-marked `Current` and `Solution`, so the
original claim fails). -/
theorem claim_C7 :
    (∀ (fuel : Nat) (m : Maze) (g bound : Nat) (st : SearchState)
        (r : SearchResult) (m' : Maze) (st' : SearchState),
        searchF fuel m g bound st = some (r, m', st') →
        get2 m.grid m.start ≠ Cell.Visited →
        get2 m'.grid m.start ≠ Cell.Visited) ∧
    (∀ (fuel : Nat) (m : Maze) (bound : Nat) (st : SearchState)
        (res : Option (List Pos)) (m' : Maze),
        idaLoop fuel m bound st = some (res, m') →
        get2 m.grid m.start ≠ Cell.Visited →
        m'.start = m.start ∧ get2 m'.grid m.start ≠ Cell.Visited) := by
  constructor
  · intro fuel m g bound st r m' st' hs hnv
    exact ((search_basic fuel).1 m g bound st r m' st' hs).2.2.1 hnv
  · intro fuel m bound st res m' h hnv
    exact idaLoop_notVisited fuel m bound st res m' h hnv

/-- C7 amended instantiated on `M3`: after the full run the start cell is
not `Visited`. -/
theorem claim_C7_witness :
    M3fin.start = M3.start ∧ get2 M3fin.grid M3.start ≠ Cell.Visited :=
  claim_C7.2 (idaFuel M3.size) M3 (3 * manhattan M3 M3.start)
    ⟨[M3.start], List.replicate M3.size (List.replicate M3.size false)⟩
    (some M3sol) M3fin (by decide) (by decide)

/-- C7 counterexample: on `M3` the run ends with the start cell marked
`Solution`, not `Path`, so the start cell is overlay-marked. -/
theorem claim_C7_counterexample :
    M3.ida_star.map (fun r => get2 r.2.grid M3.start) = some Cell.Solution ∧
    Cell.Solution ≠ Cell.Path := ⟨by decide, by decide⟩

/-- C8: the visited matrix is shared and monotone across the whole of
`ida_star`: `search` only ever grows it, a bound-escalation step passes
`st'.visited` on unchanged while resetting the path to `[start]`, and
`getMoves` never proposes a visited cell. -/
theorem claim_C8 :
    (∀ (fuel : Nat) (m : Maze) (g bound : Nat) (st : SearchState)
        (r : SearchResult) (m' : Maze) (st' : SearchState),
        searchF fuel m g bound st = some (r, m', st') →
        ∀ q, getV st.visited q = true → getV st'.visited q = true) ∧
    (∀ (fuel : Nat) (m m' : Maze) (bound : Nat) (st st' : SearchState),
        bound < m.size * m.size →
        searchF (searchFuel m.size) m 0 bound st
          = some (SearchResult.NewBound none, m', st') →
        idaLoop (fuel + 1) m bound st
          = idaLoop fuel m' (bound + m.size) ⟨[m'.start], st'.visited⟩) ∧
    (∀ (fuel : Nat) (m m' : Maze) (bound nv : Nat) (st st' : SearchState),
        bound < m.size * m.size →
        searchF (searchFuel m.size) m 0 bound st
          = some (SearchResult.NewBound (some nv), m', st') →
        idaLoop (fuel + 1) m bound st
          = idaLoop fuel m' (nv + m.size / 2) ⟨[m'.start], st'.visited⟩) ∧
    (∀ (m : Maze) (g : Nat) (vis : VisM) (c : Pos) (mv : Nat × Pos),
        mv ∈ getMoves m g vis c → getV vis mv.2 = false) := by
  refine ⟨?_, ?_, ?_, ?_⟩
  · intro fuel m g bound st r m' st' hs
    exact ((search_basic fuel).1 m g bound st r m' st' hs).2.1
  · intro fuel m m' bound st st' hlt hs
    exact idaLoop_newBound_inf hlt hs
  · intro fuel m m' bound nv st st' hlt hs
    exact idaLoop_newBound_fin hlt hs
  · intro m g vis c mv h
    exact (getMoves_mem h).2.2.2

/-- C8 instantiated: a cell visited before a concrete `searchF` run on `M3`
is still visited after it. -/
theorem claim_C8_witness : getV st1.visited (2, 2) = true :=
  claim_C8.1 20 M3 0 0 st1 (SearchResult.Found M3sol) M3fin st1 (by decide)
    (2, 2) (by decide)

/-- C9 (amended): `generate` terminates normally for every grid size at
least 3 (for size 2 the loop-injection pass panics in `gen_range(1..1)`, so
the original bound `size >= 2` is wrong). -/
theorem claim_C9 (size : Nat) (rng : Rng) (m : Maze)
    (h3 : 3 ≤ size) (hnew : Maze.new size = some m) :
    ∃ m', m.generate rng = some m' := by
  rw [Maze.new, if_pos (show 2 ≤ size by omega)] at hnew
  dsimp only at hnew
  simp only [Option.some.injEq] at hnew
  subst hnew
  exact Option.isSome_iff_exists.mp (generate_isSome rng h3)

/-- C9 amended at size 3 with the all-zero random stream. -/
theorem claim_C9_witness : ∃ m', M3.generate rng0 = some m' :=
  claim_C9 3 rng0 M3 (by decide) (by decide)

/-- C9 counterexample: `Maze::new(2)` succeeds, but `generate` panics
(`gen_range` on the empty range `1..1`), modelled as `none`. -/
theorem claim_C9_counterexample :
    Maze.new 2 = some M2 ∧ M2.generate rng0 = none := ⟨by decide, by decide⟩

/-- C10 (amended): a program run terminates normally for every effective
size at least 3; sizes 0 and 1 panic in `Maze::new` (out-of-bounds
`grid[1][1]`) and size 2 panics in `generate`, so the original
every-size claim is wrong. -/
theorem claim_C10 (size : Nat) (rng : Rng) (h3 : 3 ≤ size) :
    ∃ r, programRun size rng = some r := by
  have h2 : 2 ≤ size := by omega
  cases hnew : Maze.new size with
  | none =>
    rw [Maze.new, if_pos h2] at hnew
    exact Option.noConfusion hnew
  | some m0 =>
    have hfields : m0.size = size ∧ m0.start = (1, 1) := by
      have hnew2 := hnew
      rw [Maze.new, if_pos h2] at hnew2
      dsimp only at hnew2
      simp only [Option.some.injEq] at hnew2
      rw [← hnew2]
      exact ⟨rfl, rfl⟩
    obtain ⟨hsz0, hst0⟩ := hfields
    obtain ⟨m1, hgen⟩ := Option.isSome_iff_exists.mp
      (@generate_isSome m0 rng (by omega))
    have hsz1 : m1.size = m0.size := (generate_props hgen).1
    have hst1 : m1.start = m0.start := (generate_props hgen).2.1
    have hida : (m1.ida_star).isSome = true := by
      unfold Maze.ida_star
      dsimp only
      exact idaLoop_isSome (m1.size * m1.size) m1 (3 * manhattan m1 m1.start)
        ⟨[m1.start], List.replicate m1.size (List.replicate m1.size false)⟩
        (by omega) (hst1.trans hst0) rfl (by omega)
    obtain ⟨rr, heq⟩ := Option.isSome_iff_exists.mp hida
    obtain ⟨r, mf⟩ := rr
    refine ⟨r, ?_⟩
    unfold programRun
    rw [hnew]
    dsimp only
    rw [hgen]
    dsimp only
    rw [heq]

/-- C10 amended at size 3. -/
theorem claim_C10_witness : ∃ r, programRun 3 rng0 = some r :=
  claim_C10 3 rng0 (by decide)

/-- C10 counterexample: parsed sizes 0, 1 and 2 all make the program panic
(modelled as `none`). -/
theorem claim_C10_counterexample :
    programRun (effectiveSize (some 0)) rng0 = none ∧
    programRun (effectiveSize (some 1)) rng0 = none ∧
    programRun (effectiveSize (some 2)) rng0 = none :=
  ⟨by decide, by decide, by decide⟩

end MazeSolver
